import Mathlib

/-! Formal model of the hierarchical geometric composition engine of the
ELEC413 PIClet generator (aggregate/piclet_generator.py), together with
models of its submission loading, username resolution and error handling
logic.  Coordinates are database units (integers).  The KLayout simple
transformation pya.Trans is modelled as a quarter rotation, an optional
mirroring at the x axis, and an integer displacement, applied in the
order: mirror, rotation, displacement.  Recursions that the Python code
bounds with a visited set are modelled with an explicit fuel argument;
a None result marks fuel exhaustion and sufficiency of fuel is proved
separately. -/

/-- Quarter rotation applied to an integer point. -/
def rotP (k : Fin 4) (p : Int × Int) : Int × Int :=
  match k.val with
  | 0 => p
  | 1 => (-p.2, p.1)
  | 2 => (-p.1, -p.2)
  | _ => (p.2, -p.1)

/-- Mirroring at the x axis. -/
def mirP (m : Bool) (p : Int × Int) : Int × Int :=
  if m then (p.1, -p.2) else p

/-- Model of the KLayout simple transformation pya.Trans: rotation angle in
quarter turns, mirror flag, integer displacement. -/
structure KTrans where
  rot : Fin 4
  mirror : Bool
  dx : Int
  dy : Int
deriving DecidableEq

/-- Linear part of a transformation. -/
def KTrans.lin (t : KTrans) (p : Int × Int) : Int × Int :=
  rotP t.rot (mirP t.mirror p)

/-- Apply a transformation to a point. -/
def KTrans.apply (t : KTrans) (p : Int × Int) : Int × Int :=
  ((t.lin p).1 + t.dx, (t.lin p).2 + t.dy)

/-- Composition of transformations; (a.mul b) acts as b followed by a,
matching the KLayout product a * b. -/
def KTrans.mul (a b : KTrans) : KTrans where
  rot := a.rot + (if a.mirror then -b.rot else b.rot)
  mirror := a.mirror != b.mirror
  dx := (a.lin (b.dx, b.dy)).1 + a.dx
  dy := (a.lin (b.dx, b.dy)).2 + a.dy

instance : Mul KTrans := ⟨KTrans.mul⟩

/-- The identity transformation pya.Trans.R0 with zero displacement. -/
def KTrans.idT : KTrans := ⟨0, false, 0, 0⟩

/-- A pure translation. -/
def translT (v : Int × Int) : KTrans := ⟨0, false, v.1, v.2⟩

/- ----------------------------------------------------------------------
C1: move_instance_up_hierarchy (piclet_generator.py lines 354-462).
The loop starts from pya.Trans.R0 and repeatedly executes
accumulated_transform *= current_inst.trans while walking from the moved
instance upward through its ancestor placements, and finally assigns the
accumulated product to the re-parented instance.
---------------------------------------------------------------------- -/

/-- Transform that move_instance_up_hierarchy assigns to the moved
instance: the left fold of the product over the transform of the instance
itself followed by the transforms of its ancestor placements, taken
bottom-up, starting from the identity. -/
def move_accumulated_transform (own : KTrans) (parents : List KTrans) : KTrans :=
  (own :: parents).foldl (fun acc t => acc * t) KTrans.idT

/-- Absolute transform of an instance nested below the given ancestor
placements (innermost ancestor first): each hierarchy level applies its
placement transform after the transform accumulated below it. -/
def absolute_transform (own : KTrans) (parents : List KTrans) : KTrans :=
  parents.foldl (fun acc t => t * acc) own

/-- Instance transform used in the C1 evaluation: a pure 100 unit
translation along x. -/
def c1_own : KTrans := ⟨0, false, 100, 0⟩

/-- Parent placement used in the C1 evaluation: a 90 degree rotation. -/
def c1_parent : KTrans := ⟨1, false, 0, 0⟩

/- ----------------------------------------------------------------------
C2: FaML substitution and chip-edge alignment
(piclet_generator.py lines 947-983, find_faml_positions inside
create_simplified_piclet).  The copied design subtree is modelled as a
tree of cells; each instance carries its placement transform, and a cell
is marked when it is the FaML replacement cell.
---------------------------------------------------------------------- -/

/-- Chip width in database units (piclet_generator.py, die_width). -/
def die_width : Int := 2753330

/-- Right edge of the chip, die_width/2, as computed in
create_simplified_piclet. -/
def chip_right_edge : Int := die_width / 2

/-- A cell of the duplicated design subtree: whether its name equals the
FaML cell name, and its child instances with their transforms. -/
inductive FCell where
  | mk (isFaML : Bool) (insts : List (KTrans × FCell))

mutual
/-- Model of find_faml_positions: walk the instance tree, accumulate the
parent transform top-down, record the displacement x of every instance of
the FaML cell, and recurse into every other instance. -/
def find_faml_positions : FCell → KTrans → List Int
  | .mk _ insts, parent_transform => find_faml_positions_insts insts parent_transform
/-- The loop of find_faml_positions over the instances of one cell. -/
def find_faml_positions_insts : List (KTrans × FCell) → KTrans → List Int
  | [], _ => []
  | (t, sub) :: rest, pt =>
    (match sub with
     | .mk true _ => [(pt * t).dx]
     | .mk false _ => find_faml_positions sub (pt * t)) ++
    find_faml_positions_insts rest pt
end

/-- Python max over a nonempty list (its value on [] is irrelevant). -/
def pyMax : List Int → Int
  | [] => 0
  | x :: xs => xs.foldl max x

/-- Transform assigned to the copied subtree instance by
create_simplified_piclet: rotation R0 and x displacement
chip_right_edge - rightmost_faml_x, keeping a given y displacement. -/
def reposition_rightmost_faml (copy : FCell) (y : Int) : KTrans :=
  ⟨0, false, chip_right_edge - pyMax (find_faml_positions copy KTrans.idT), y⟩

/-- Concrete copied subtree used for the C2 witness: one FaML instance at
x = 300. -/
def c2_copy : FCell := .mk false [(⟨0, false, 300, 0⟩, .mk true [])]

/- ----------------------------------------------------------------------
C3 and C7: find_port_sin_cell_and_position
(piclet_generator.py lines 693-737).  A layout is a list of cells; a cell
has a name, a bounding-box center supplied by the CAD kernel, and child
instances referring to cells by index.  The Python recursion carries a
visited set of cell identities; the model threads it explicitly.
---------------------------------------------------------------------- -/

/-- Does the first list occur as a leading segment of the second. -/
def strStarts : List Char → List Char → Bool
  | [], _ => true
  | _ :: _, [] => false
  | a :: as, b :: bs => a == b && strStarts as bs

/-- Does the needle occur contiguously anywhere in the hay, like the
Python substring operator. -/
def strHas (needle : List Char) : List Char → Bool
  | [] => strStarts needle []
  | l@(_ :: rest) => strStarts needle l || strHas needle rest

/-- Python substring containment on strings. -/
def containsS (needle hay : String) : Bool := strHas needle.data hay.data

/-- An instance: the index of the instantiated cell and its placement. -/
structure InstM where
  cellIdx : Nat
  trans : KTrans
deriving DecidableEq

/-- A cell: name, bounding-box center (a CAD-kernel query, supplied as
data), and child instances. -/
structure CellM where
  name : String
  center : Int × Int
  insts : List InstM
deriving DecidableEq

/-- Look a cell up by index; out-of-range indices give an empty cell. -/
def getCell (L : List CellM) (i : Nat) : CellM := (L[i]?).getD ⟨"", (0, 0), []⟩

/-- The port-marker test of find_port_sin_cell_and_position: the template
cell name contains the substring port_SiN. -/
def isPortInst (L : List CellM) (i : InstM) : Bool :=
  containsS "port_SiN" (getCell L i.cellIdx).name

mutual
/-- Model of find_port_sin_cell_and_position: if the cell was already
visited return (None, None); otherwise mark it visited, scan its direct
instances for one whose template name contains port_SiN and return that
template with the y coordinate of the transformed bounding-box center,
and only if none matches recurse into the sub-cells in order.  The result
pairs the returned value with the visited set; the outer None marks fuel
exhaustion. -/
def find_port_sin_cell_and_position (L : List CellM) :
    Nat → Nat → List Nat → Option (Option (Nat × Int) × List Nat)
  | 0, _, _ => none
  | fuel + 1, ci, visited =>
    if ci ∈ visited then some (none, visited)
    else
      let c := getCell L ci
      match c.insts.find? (isPortInst L) with
      | some i =>
        some (some (i.cellIdx, (i.trans.apply (getCell L i.cellIdx).center).2),
          ci :: visited)
      | none => find_port_sin_insts L fuel c.insts (ci :: visited)
  termination_by fuel ci visited => (fuel, 0)
/-- The recursion of find_port_sin_cell_and_position over the instances
of one cell, threading the visited set and stopping at the first hit. -/
def find_port_sin_insts (L : List CellM) :
    Nat → List InstM → List Nat → Option (Option (Nat × Int) × List Nat)
  | _, [], visited => some (none, visited)
  | fuel, i :: rest, visited =>
    match find_port_sin_cell_and_position L fuel i.cellIdx visited with
    | none => none
    | some (some r, v) => some (some r, v)
    | some (none, v) => find_port_sin_insts L fuel rest v
  termination_by fuel l visited => (fuel, l.length + 1)
end

/-- What a returned port hit means: some cell of the layout directly
contains an instance whose template name contains port_SiN, the returned
cell is that template, and the returned y coordinate is the y of the
transformed bounding-box center of that instance in the local frame of
the cell that directly contains it. -/
def PortSpec (L : List CellM) (pc : Nat) (y : Int) : Prop :=
  ∃ j i, i ∈ (getCell L j).insts ∧ isPortInst L i = true ∧
    pc = i.cellIdx ∧ y = (i.trans.apply (getCell L i.cellIdx).center).2

/-- The visited set only grows, by fresh pairwise distinct cells. -/
def GrowsVisited (visited v : List Nat) : Prop :=
  ∃ new, v = new ++ visited ∧ new.Nodup ∧ ∀ j ∈ new, j ∉ visited

/-- Number of cell indices of a layout of n cells not yet visited. -/
def unvisited (n : Nat) (v : List Nat) : Nat :=
  ((Finset.range n).filter (fun j => j ∉ v)).card

/-- A layout has no port marker anywhere when no cell directly contains
an instance whose template name contains port_SiN. -/
def NoPortAnywhere (L : List CellM) : Prop :=
  ∀ j i, i ∈ (getCell L j).insts → isPortInst L i = false

/-- Concrete layout for the C3 counterexample: cell 0 contains cell 1 at
a vertical offset of 100; cell 1 contains the port marker cell 2 at the
origin. -/
def c3_layout : List CellM :=
  [⟨"top", (0, 0), [⟨1, ⟨0, false, 0, 100⟩⟩]⟩,
   ⟨"sub", (0, 0), [⟨2, KTrans.idT⟩]⟩,
   ⟨"port_SiN_1", (0, 0), []⟩]

/-- Concrete cyclic layout for the C7 witness: cells 0 and 1 instantiate
each other and neither is a port marker. -/
def c7_layout : List CellM :=
  [⟨"a", (0, 0), [⟨1, KTrans.idT⟩]⟩,
   ⟨"b", (0, 0), [⟨0, KTrans.idT⟩]⟩]

/- ----------------------------------------------------------------------
C4: per-pair error handling in generate_piclets
(piclet_generator.py lines 1384-1421, the two-submission branch).  The
try block builds the PIClet, then exports to the tapeout path when that
path exists (raising when it does not), then exports to the local
piclets directory; the except block prints the error and continues with
the next pair.  Each step that can raise is modelled by an oracle flag;
an export that succeeds writes its file atomically (the collaborator
export_layout is given).
---------------------------------------------------------------------- -/

/-- The two output locations of a pair artifact. -/
inductive Loc where
  | tapeout
  | piclets
deriving DecidableEq

/-- Oracle describing how one pair run behaves: whether geometry assembly
succeeds, whether the tapeout path exists, and whether each of the two
export calls succeeds. -/
structure PairRun where
  assembleOk : Bool
  tapeoutPathExists : Bool
  exportTapeoutOk : Bool
  exportLocalOk : Bool
deriving DecidableEq

/-- Model of one iteration of the pair loop of generate_piclets: returns
the list of files written for this pair and whether the except branch
logged an error.  Control never leaves the loop: on an exception the
handler prints and continues, so the batch proceeds either way. -/
def generate_piclets_pair (r : PairRun) : List Loc × Bool :=
  if !r.assembleOk then ([], true)
  else if r.tapeoutPathExists then
    if r.exportTapeoutOk then
      if r.exportLocalOk then ([Loc.tapeout, Loc.piclets], false)
      else ([Loc.tapeout], true)
    else ([], true)
  else ([], true)

/-- Model of the pair loop of generate_piclets: every pair is processed,
failures only affect their own pair. -/
def generate_piclets_batch (rs : List PairRun) : List (List Loc × Bool) :=
  rs.map generate_piclets_pair

/-- Pair run for the C4 counterexample: assembly and the tapeout export
succeed and the subsequent local export raises. -/
def c4_run : PairRun := ⟨true, true, true, false⟩


/- ----------------------------------------------------------------------
C9: get_github_username_from_api (piclet_generator.py lines 575-616).
The HTTP response of each attempt is an oracle; status 403 sleeps 60
seconds and retries the same email by plain recursion with no retry
bound and no backoff growth.  The fuel bounds the number of attempts
observed; a None first component means the recursion was still retrying
when the fuel ran out, and the sleep list records the duration of every
sleep performed.
---------------------------------------------------------------------- -/

/-- Possible outcomes of one GitHub API request. -/
inductive ApiResp where
  | found (u : String)
  | notFound
  | rateLimited
  | otherStatus
deriving DecidableEq

/-- Association-list lookup, modelling a Python dict access. -/
def lookupD {α : Type} : List (String × α) → String → Option α
  | [], _ => none
  | (k, v) :: rest, key => if k = key then some v else lookupD rest key

/-- Model of get_github_username_from_api: return a cached result first;
on a 200 response cache and return the result; on a 403 response sleep 60
seconds and retry the same email recursively; on any other status cache
None and return None.  The result carries the updated cache and the list
of sleep durations. -/
def get_github_username_from_api (resp : Nat → ApiResp)
    (cache : List (String × Option String)) (email : String) :
    Nat → Nat →
      Option (Option String × List (String × Option String)) × List Nat
  | 0, _ => (none, [])
  | fuel + 1, attempt =>
    match lookupD cache email with
    | some v => (some (v, cache), [])
    | none =>
      match resp attempt with
      | .found u => (some (some u, (email, some u) :: cache), [])
      | .notFound => (some (none, (email, none) :: cache), [])
      | .otherStatus => (some (none, (email, none) :: cache), [])
      | .rateLimited =>
        let r := get_github_username_from_api resp cache email fuel (attempt + 1)
        (r.1, 60 :: r.2)

/-- The all-rate-limited response oracle used by the C9 witness. -/
def c9_resp : Nat → ApiResp := fun _ => ApiResp.rateLimited

/- ----------------------------------------------------------------------
C10: get_github_username (piclet_generator.py lines 619-690).  The whole
body is wrapped in try/except returning the string unknown on any
exception; the git query, the fork matching and the API lookup are
collaborators modelled by an oracle.
---------------------------------------------------------------------- -/

/-- Oracle for one get_github_username call: whether anything inside the
try block raises, whether the git log query succeeds (returncode 0), the
stripped author email it prints, the result of fork matching and the
result of the API lookup. -/
structure UserOracle where
  raises : Bool
  gitOk : Bool
  email : String
  forkMatch : Option String
  apiResult : Option String
deriving DecidableEq

/-- Resolution chain of get_github_username once the git query result is
known: noreply-email extraction, fork matching, API lookup, then email
parsing with the lukasc special mapping, falling back to unknown. -/
def github_username_resolve (o : UserOracle) : String :=
  if o.gitOk && o.email != "" then
    (let email := o.email
     let noreply :=
       if containsS "@" email then
         (let userid := (email.splitOn "@").headD ""
          if containsS "+" userid &&
              containsS "@users.noreply.github.com" email then
            some ((userid.splitOn "+").getD 1 "")
          else none)
       else none
     match noreply with
     | some u => u
     | none =>
       match o.forkMatch with
       | some u => u
       | none =>
         match o.apiResult with
         | some u => u
         | none =>
           if containsS "@" email then
             (let userid := (email.splitOn "@").headD ""
              let cleaned := (userid.replace "." "").replace "-" ""
              if cleaned = "lukasc" then "lukasc-ubc" else cleaned)
           else "unknown")
  else "unknown"

/-- The try body of get_github_username: an exception anywhere inside is
modelled by the raises flag. -/
def get_github_username_body (o : UserOracle) : Except Unit String :=
  if o.raises then Except.error () else Except.ok (github_username_resolve o)

/-- get_github_username: the except handler turns any exception into the
string unknown. -/
def get_github_username (o : UserOracle) : String :=
  match get_github_username_body o with
  | Except.ok s => s
  | Except.error _ => "unknown"

/-- Oracle for the C10 witness: no exception, git succeeds, the email has
no at sign and both fork matching and the API lookup fail. -/
def c10_oracle : UserOracle := ⟨false, true, "nomail", none, none⟩


/- ----------------------------------------------------------------------
C6 and C8: parse_verification_errors (piclet_generator.py lines
1050-1086) and load_submission_designs (lines 1089-1202).  The
layout_check and git collaborators are modelled by a per-file oracle; the
loop threads the submissions list, the username counts dict and the
error summary.
---------------------------------------------------------------------- -/

/-- Split a string at every newline character, like the Python split
used on the verbose verification report. -/
def splitLinesAux : List Char → List Char → List String
  | [], acc => [⟨acc.reverse⟩]
  | c :: rest, acc =>
    if c = '\n' then ⟨acc.reverse⟩ :: splitLinesAux rest []
    else splitLinesAux rest (c :: acc)

/-- The lines of a string, split at newline characters. -/
def splitLines (s : String) : List String := splitLinesAux s.data []

/-- Lowercase every character, like the Python lower on the ASCII
range. -/
def lowerS (s : String) : String := ⟨s.data.map Char.toLower⟩

/-- The error categories of parse_verification_errors. -/
structure ErrorCounts where
  disconnected_pins : Nat
  floating_shapes : Nat
  invalid_components : Nat
  missing_pins : Nat
  pin_errors : Nat
  other_errors : Nat
deriving DecidableEq

/-- All categories zero; also stands for the empty details dict kept for
files whose error count is zero. -/
def zeroCounts : ErrorCounts := ⟨0, 0, 0, 0, 0, 0⟩

/-- The elif cascade of parse_verification_errors applied to one line of
the verbose report, after lowercasing. -/
def parse_verification_line (acc : ErrorCounts) (line : String) : ErrorCounts :=
  let low := lowerS line
  if containsS "disconnected pin" low then
    { acc with disconnected_pins := acc.disconnected_pins + 1 }
  else if containsS "floating shape" low then
    { acc with floating_shapes := acc.floating_shapes + 1 }
  else if containsS "invalid component" low then
    { acc with invalid_components := acc.invalid_components + 1 }
  else if containsS "missing pin" low then
    { acc with missing_pins := acc.missing_pins + 1 }
  else if containsS "pin" low &&
      (containsS "error" low || containsS "warning" low) then
    { acc with pin_errors := acc.pin_errors + 1 }
  else if (containsS "error" low || containsS "warning" low ||
        containsS "fail" low) &&
      !(containsS "disconnected" low || containsS "floating" low ||
        containsS "invalid" low || containsS "missing" low) then
    { acc with other_errors := acc.other_errors + 1 }
  else acc

/-- Model of parse_verification_errors: split the verbose output into
lines and categorize each with the elif cascade. -/
def parse_verification_errors (out : String) : ErrorCounts :=
  (splitLines out).foldl parse_verification_line zeroCounts

/-- Decimal digit character. -/
def decDigit : Nat → Char
  | 0 => '0'
  | 1 => '1'
  | 2 => '2'
  | 3 => '3'
  | 4 => '4'
  | 5 => '5'
  | 6 => '6'
  | 7 => '7'
  | 8 => '8'
  | _ => '9'

/-- Decimal digit list of a natural number, most significant digit
first, with a structural fuel argument. -/
def decDigitsAux : Nat → Nat → List Char
  | 0, _ => []
  | fuel + 1, n =>
    if n < 10 then [decDigit n]
    else decDigitsAux fuel (n / 10) ++ [decDigit (n % 10)]

/-- Decimal digit list of a natural number. -/
def decDigits (n : Nat) : List Char := decDigitsAux (n + 1) n

/-- Decimal rendering of a natural number, like the Python f-string. -/
def decRepr (n : Nat) : String := ⟨decDigits n⟩

/-- Numeric value of a decimal digit character. -/
def decVal (c : Char) : Nat := c.toNat - 48

/-- Parse a decimal digit list back to a number. -/
def decParse (ds : List Char) : Nat := ds.foldl (fun a c => 10 * a + decVal c) 0

/-- Update one entry of a counts dict, modelling a Python dict item
assignment. -/
def setCount : List (String × Nat) → String → Nat → List (String × Nat)
  | [], key, n => [(key, n)]
  | (k, v) :: rest, key, n =>
    if k = key then (key, n) :: rest else (k, v) :: setCount rest key n

/-- The duplicate-username disambiguation of load_submission_designs
(lines 1186-1193): on a repeated handle bump its count and append the
decimal count, otherwise record count one and keep the bare handle. -/
def resolve_username (counts : List (String × Nat)) (u : String) :
    String × List (String × Nat) :=
  match lookupD counts u with
  | some n => (u ++ decRepr (n + 1), setCount counts u (n + 1))
  | none => (u, (u, 1) :: counts)

/-- Verification and identity data of one submission file, as produced
by the layout_check and git collaborators: the file name, the error
count of the non-verbose check, the verbose report and the base GitHub
handle. -/
structure SubOracle where
  filename : String
  numErrors : Nat
  report : String
  username : String
deriving DecidableEq

/-- Whether load_submission_designs skips a file: the verification error
count is positive and the parsed verbose report shows at least one
disconnected pin. -/
def skipsFile (f : SubOracle) : Bool :=
  decide (0 < f.numErrors) &&
    decide (0 < (parse_verification_errors f.report).disconnected_pins)

/-- State threaded by the loading loop of load_submission_designs. -/
structure LoadState where
  submissions : List (String × String)
  counts : List (String × Nat)
  summary : List (String × ErrorCounts)
deriving DecidableEq

/-- One iteration of the loading loop: the error details are parsed when
the error count is positive; a file with disconnected pins is recorded
in the summary and skipped; any other file gets its username resolved
and is appended to the submissions, and its details recorded. -/
def load_submission_step (st : LoadState) (f : SubOracle) : LoadState :=
  let details :=
    if 0 < f.numErrors then parse_verification_errors f.report else zeroCounts
  if skipsFile f then
    { st with summary := st.summary ++ [(f.filename, details)] }
  else
    let r := resolve_username st.counts f.username
    { submissions := st.submissions ++ [(f.filename, r.1)]
      counts := r.2
      summary := st.summary ++ [(f.filename, details)] }

/-- Model of load_submission_designs over the sorted file list: the
submissions kept for PIClet pairing and the error summary that
print_error_summary_table renders. -/
def load_submission_designs (files : List SubOracle) :
    List (String × String) × List (String × ErrorCounts) :=
  let st := files.foldl load_submission_step ⟨[], [], []⟩
  (st.submissions, st.summary)

/-- The username-disambiguation fold of load_submission_designs applied
to a list of base usernames, from a given counts dict. -/
def resolve_usernames_from (counts : List (String × Nat)) :
    List String → List String
  | [] => []
  | u :: rest =>
    (resolve_username counts u).1 ::
      resolve_usernames_from (resolve_username counts u).2 rest

/-- The resolved names of a batch of base usernames, in processing
order. -/
def resolve_usernames (us : List String) : List String :=
  resolve_usernames_from [] us

/-- Base usernames of the files that load_submission_designs keeps. -/
def kept_usernames (files : List SubOracle) : List String :=
  (files.filter (fun f => !skipsFile f)).map (fun f => f.username)

/-- The number of occurrences of the i-th base username among the first
i+1 entries of the batch. -/
def occCount (us : List String) (i : Nat) : Nat :=
  (us.take (i + 1)).count (us.getD i "")

/-- The name the code gives the k-th submission of one base handle. -/
def rendered_username (u : String) (k : Nat) : String :=
  if k = 1 then u else u ++ decRepr k

/-- Count stored in a counts dict, zero when absent. -/
def countsVal (c : List (String × Nat)) (u : String) : Nat :=
  (lookupD c u).getD 0

/-- All stored counts are positive, as in the Python dict. -/
def PosCounts (c : List (String × Nat)) : Prop :=
  ∀ u n, lookupD c u = some n → 0 < n


/-- Concrete file used by the C6 witness: one disconnected-pin error. -/
def c6_file : SubOracle := ⟨"bad.gds", 1, "disconnected pin found", "alice"⟩


/-- Concrete batch for the C8 counterexample: two files with the base
handle alice and one whose base handle is the literal string alice2. -/
def c8_files : List SubOracle :=
  [⟨"a.gds", 0, "", "alice"⟩, ⟨"b.gds", 0, "", "alice"⟩,
   ⟨"c.gds", 0, "", "alice2"⟩]


/- ----------------------------------------------------------------------
C5: explode_regular_arrays (piclet_generator.py lines 465-507).  Cells
are again a list indexed by cell index; an instance additionally carries
the regular-array data of the CAD kernel (row and column counts and step
vectors), and the kernel explode method expands an array in place.  The
recursion explodes every array of a not-yet-visited cell and then
recurses into the template of every instance of the resulting list; the
layout, the exploded count and the visited set are threaded, and fuel
models the visited-set-bounded recursion.
---------------------------------------------------------------------- -/

/-- An instance of the array-explosion model: template index, placement
transform and, for a regular array, row and column counts with the two
step vectors. -/
structure AInst where
  cellIdx : Nat
  trans : KTrans
  arr : Option ((Nat × Nat) × (Int × Int) × (Int × Int))
deriving DecidableEq

/-- A cell of the array-explosion model. -/
structure ACell where
  name : String
  insts : List AInst
deriving DecidableEq

/-- The is_regular_array test of the CAD kernel. -/
def is_regular_array (i : AInst) : Bool := i.arr.isSome

/-- Sum of two integer vectors. -/
def vadd (a b : Int × Int) : Int × Int := (a.1 + b.1, a.2 + b.2)

/-- Scale an integer vector by a repetition index. -/
def vsmul (k : Nat) (v : Int × Int) : Int × Int :=
  ((k : Int) * v.1, (k : Int) * v.2)

/-- The explode method of the CAD kernel on one instance: a regular
array of R rows and C columns becomes R*C single instances, the element
at row r and column c placed at the base transform translated by
r*step_row + c*step_col; a single instance stays as it is. -/
def explodeInst (i : AInst) : List AInst :=
  match i.arr with
  | none => [i]
  | some ((rows, cols), srow, scol) =>
    (List.range rows).flatMap (fun r =>
      (List.range cols).map (fun c =>
        ⟨i.cellIdx, translT (vadd (vsmul r srow) (vsmul c scol)) * i.trans,
          none⟩))

/-- Cell lookup for the explosion model. -/
def getACell (L : List ACell) (i : Nat) : ACell := (L[i]?).getD ⟨"", []⟩

/-- Cell update for the explosion model. -/
def setACell (L : List ACell) (i : Nat) (c : ACell) : List ACell := L.set i c

/-- Number of regular-array instances directly inside a cell. -/
def arraysIn (c : ACell) : Nat := (c.insts.filter is_regular_array).length

mutual
/-- Model of explode_regular_arrays: a visited cell contributes nothing;
otherwise every regular array among the cell instances is exploded in
place, the cell is marked visited, and the recursion descends into the
template of every instance of the resulting list.  The result threads
the layout, the count of exploded arrays and the visited set; None marks
fuel exhaustion. -/
def explode_regular_arrays (L : List ACell) :
    Nat → Nat → List Nat → Option (List ACell × Nat × List Nat)
  | 0, _, _ => none
  | fuel + 1, ci, visited =>
    if ci ∈ visited then some (L, 0, visited)
    else
      let c := getACell L ci
      let newInsts := c.insts.flatMap explodeInst
      (explode_children (setACell L ci ⟨c.name, newInsts⟩) fuel newInsts
        (ci :: visited)).map (fun res => (res.1, arraysIn c + res.2.1, res.2.2))
  termination_by fuel ci visited => (fuel, 0)
/-- The recursion of explode_regular_arrays into the instances of one
cell, threading layout, exploded count and visited set. -/
def explode_children (L : List ACell) :
    Nat → List AInst → List Nat → Option (List ACell × Nat × List Nat)
  | _, [], visited => some (L, 0, visited)
  | fuel, i :: rest, visited =>
    match explode_regular_arrays L fuel i.cellIdx visited with
    | none => none
    | some (L1, n1, v1) =>
      match explode_children L1 fuel rest v1 with
      | none => none
      | some (L2, n2, v2) => some (L2, n1 + n2, v2)
  termination_by fuel l visited => (fuel, l.length + 1)
end

/-- What one completed explosion pass guarantees, with the list of newly
visited cells explicit: the visited set grew exactly by the fresh
distinct cells of new; cells outside new are untouched; every cell of
new had its instance list exploded in place; the returned count is the
number of array instances the visited cells had before the pass; every
instance of an exploded cell points at a cell visited by the end of the
pass; and the layout length is unchanged. -/
def ExplodeSpecN (L L2 : List ACell) (n : Nat)
    (visited v2 new : List Nat) : Prop :=
  v2 = new ++ visited ∧ new.Nodup ∧ (∀ j ∈ new, j ∉ visited) ∧
  (∀ j, j ∉ new → getACell L2 j = getACell L j) ∧
  (∀ j ∈ new, (getACell L2 j).insts =
    (getACell L j).insts.flatMap explodeInst ∧
    (getACell L2 j).name = (getACell L j).name) ∧
  n = (new.map (fun j => arraysIn (getACell L j))).sum ∧
  (∀ j ∈ new, ∀ i ∈ (getACell L2 j).insts, i.cellIdx ∈ v2) ∧
  L2.length = L.length

/-- Concrete layout for the C5 witness: the top cell holds one regular
array of 2 rows and 3 columns over the leaf cell. -/
def c5_layout : List ACell :=
  [⟨"top", [⟨1, KTrans.idT, some ((2, 3), (10, 0), (0, 20))⟩]⟩,
   ⟨"leaf", []⟩]


/- ======================================================================
THEOREMS
====================================================================== -/

/-- C1 (code bug): for an instance whose own transform is a pure
translation placed below a parent instance that is rotated by 90 degrees,
the transform that move_instance_up_hierarchy assigns after re-parenting
(own transform composed first, then the parent placement) differs from
the absolute transform the instance had before the move (parent placement
applied last), so the absolute position is not preserved: before the move
the instance sits at displacement (0, 100), after the move at (100, 0). -/
theorem move_instance_up_hierarchy_rotated_parent_eval :
    move_accumulated_transform c1_own [c1_parent] = ⟨1, false, 100, 0⟩ ∧
    absolute_transform c1_own [c1_parent] = ⟨1, false, 0, 100⟩ ∧
    move_accumulated_transform c1_own [c1_parent] ≠
      absolute_transform c1_own [c1_parent] ∧
    (move_accumulated_transform c1_own [c1_parent]).apply (0, 0) = (100, 0) ∧
    (absolute_transform c1_own [c1_parent]).apply (0, 0) = (0, 100) := by
  refine ⟨rfl, rfl, by decide, rfl, rfl⟩

/-- The product on KTrans unfolds to KTrans.mul. -/
theorem KTrans.mul_def (a b : KTrans) : a * b = KTrans.mul a b := rfl

/-- Composing a pure translation with any transformation only shifts the
displacement. -/
theorem translT_mul (off y : Int) (u : KTrans) :
    (⟨0, false, off, y⟩ : KTrans) * u = ⟨u.rot, u.mirror, u.dx + off, u.dy + y⟩ := by
  cases u with
  | mk r m dx dy =>
    simp [KTrans.mul_def, KTrans.mul, KTrans.lin, rotP, mirP]

/-- Associativity of the product when the leftmost factor is a pure
translation. -/
theorem translT_mul_assoc (off y : Int) (s t : KTrans) :
    ((⟨0, false, off, y⟩ : KTrans) * s) * t =
      (⟨0, false, off, y⟩ : KTrans) * (s * t) := by
  rw [translT_mul, translT_mul]
  cases s with
  | mk r m dx dy =>
    cases t with
    | mk r2 m2 dx2 dy2 =>
      simp [KTrans.mul_def, KTrans.mul, KTrans.lin]
      omega

mutual
/-- Prefixing the accumulated parent transform with a pure translation
shifts every recorded FaML x position by the translation x component. -/
theorem find_faml_positions_shift (off y : Int) :
    ∀ (c : FCell) (s : KTrans),
      find_faml_positions c ((⟨0, false, off, y⟩ : KTrans) * s) =
        (find_faml_positions c s).map (fun x => off + x)
  | .mk b insts, s => by
    simpa [find_faml_positions] using find_faml_positions_insts_shift off y insts s
/-- The instance-list version of find_faml_positions_shift. -/
theorem find_faml_positions_insts_shift (off y : Int) :
    ∀ (l : List (KTrans × FCell)) (pt : KTrans),
      find_faml_positions_insts l ((⟨0, false, off, y⟩ : KTrans) * pt) =
        (find_faml_positions_insts l pt).map (fun x => off + x)
  | [], pt => by simp [find_faml_positions_insts]
  | (t, sub) :: rest, pt => by
    have hrest := find_faml_positions_insts_shift off y rest pt
    cases sub with
    | mk b insts =>
      cases b with
      | true =>
        simp only [find_faml_positions_insts, translT_mul_assoc, hrest,
          List.map_append]
        rw [translT_mul]
        simp [Int.add_comm]
      | false =>
        have hsub := find_faml_positions_shift off y (.mk false insts) (pt * t)
        simp only [find_faml_positions_insts, translT_mul_assoc, hrest,
          List.map_append, hsub]
end

/-- Folding max over a list shifted by a constant. -/
theorem foldl_max_map_add (off : Int) :
    ∀ (xs : List Int) (a : Int),
      (xs.map (fun x => off + x)).foldl max (off + a) = off + xs.foldl max a
  | [], a => rfl
  | x :: xs, a => by
    have hmax : max (off + a) (off + x) = off + max a x := by
      rcases le_total a x with h | h
      · rw [max_eq_right h, max_eq_right (by omega)]
      · rw [max_eq_left h, max_eq_left (by omega)]
    simp only [List.map_cons, List.foldl_cons, hmax, foldl_max_map_add off xs]

/-- pyMax of a nonempty list shifted by a constant. -/
theorem pyMax_map_add (off : Int) (l : List Int) (h : l ≠ []) :
    pyMax (l.map (fun x => off + x)) = off + pyMax l := by
  cases l with
  | nil => exact absurd rfl h
  | cons x xs => simpa [pyMax] using foldl_max_map_add off xs x

/-- C2: once create_simplified_piclet re-positions the copied subtree
with the transform chip_right_edge - rightmost_faml_x, the maximum
absolute x coordinate over all FaML instances, recomputed by
find_faml_positions from the repositioned root, equals chip_right_edge
exactly. -/
theorem faml_rightmost_alignment_exact (copy : FCell) (y : Int)
    (h : find_faml_positions copy KTrans.idT ≠ []) :
    pyMax (find_faml_positions copy (reposition_rightmost_faml copy y)) =
      chip_right_edge := by
  set ps := find_faml_positions copy KTrans.idT with hps
  set off := chip_right_edge - pyMax ps with hoff
  have hT : reposition_rightmost_faml copy y =
      (⟨0, false, off, y⟩ : KTrans) * KTrans.idT := by
    rw [translT_mul]
    simp [reposition_rightmost_faml, KTrans.idT, hoff, hps]
  rw [hT, find_faml_positions_shift off y copy KTrans.idT, ← hps,
    pyMax_map_add off ps h]
  omega

/-- Witness for C2 at a concrete subtree. -/
theorem faml_rightmost_alignment_exact_witness :
    find_faml_positions c2_copy KTrans.idT ≠ [] ∧
    pyMax (find_faml_positions c2_copy (reposition_rightmost_faml c2_copy 0)) =
      chip_right_edge :=
  ⟨by decide, faml_rightmost_alignment_exact c2_copy 0 (by decide)⟩

/-- The empty extension grows a visited set. -/
theorem GrowsVisited.refl (v : List Nat) : GrowsVisited v v :=
  ⟨[], by simp, by simp, by simp⟩

/-- Adding one fresh cell grows a visited set. -/
theorem GrowsVisited.cons {j : Nat} {v : List Nat} (h : j ∉ v) :
    GrowsVisited v (j :: v) :=
  ⟨[j], by simp, by simp, by simpa using h⟩

/-- Growing is transitive. -/
theorem GrowsVisited.trans {a b c : List Nat}
    (h1 : GrowsVisited a b) (h2 : GrowsVisited b c) : GrowsVisited a c := by
  obtain ⟨n1, rfl, hn1, hd1⟩ := h1
  obtain ⟨n2, rfl, hn2, hd2⟩ := h2
  refine ⟨n2 ++ n1, by simp, ?_, ?_⟩
  · rw [List.nodup_append]
    refine ⟨hn2, hn1, fun x hx2 hx1 => hd2 x hx2 ?_⟩
    simp [hx1]
  · intro j hj ha
    rcases List.mem_append.mp hj with hj2 | hj1
    · exact hd2 j hj2 (by simp [ha])
    · exact hd1 j hj1 ha

/-- A grown visited set contains the original one. -/
theorem GrowsVisited.subset {a b : List Nat} (h : GrowsVisited a b) :
    ∀ x, x ∈ a → x ∈ b := by
  obtain ⟨n, rfl, _, _⟩ := h
  intro x hx
  simp [hx]

/-- At most n cell indices of a layout with n cells are unvisited. -/
theorem unvisited_le (n : Nat) (v : List Nat) : unvisited n v ≤ n := by
  calc unvisited n v ≤ (Finset.range n).card := Finset.card_filter_le _ _
  _ = n := Finset.card_range n

/-- Growing the visited set cannot increase the unvisited count. -/
theorem unvisited_subset_le (n : Nat) {v w : List Nat}
    (h : ∀ x, x ∈ v → x ∈ w) : unvisited n w ≤ unvisited n v := by
  apply Finset.card_le_card
  intro x hx
  simp only [Finset.mem_filter, Finset.mem_range] at hx ⊢
  exact ⟨hx.1, fun hv => hx.2 (h x hv)⟩

/-- Visiting a fresh in-range cell strictly decreases the unvisited
count. -/
theorem unvisited_cons_lt {n j : Nat} (v : List Nat) (hj : j < n)
    (hnv : j ∉ v) : unvisited n (j :: v) < unvisited n v := by
  have hsub : (Finset.range n).filter (fun x => x ∉ (j :: v)) ⊆
      (Finset.range n).filter (fun x => x ∉ v) := by
    intro x hx
    simp only [Finset.mem_filter, Finset.mem_range, List.mem_cons] at hx ⊢
    exact ⟨hx.1, fun hv => hx.2 (Or.inr hv)⟩
  apply Finset.card_lt_card
  rw [Finset.ssubset_iff_of_subset hsub]
  refine ⟨j, ?_, ?_⟩
  · simp only [Finset.mem_filter, Finset.mem_range]
    exact ⟨hj, hnv⟩
  · intro hmem
    simp only [Finset.mem_filter, Finset.mem_range, List.mem_cons] at hmem
    exact hmem.2 (Or.inl trivial)

/-- Soundness of find_port_sin_cell_and_position: whenever the search
returns, the visited set has grown by fresh distinct cells, and any hit
satisfies PortSpec. -/
theorem find_port_sin_sound (L : List CellM) :
    ∀ (fuel ci : Nat) (visited : List Nat) res,
      find_port_sin_cell_and_position L fuel ci visited = some res →
      GrowsVisited visited res.2 ∧
        ∀ pc yy, res.1 = some (pc, yy) → PortSpec L pc yy := by
  intro fuel
  induction fuel with
  | zero =>
    intro ci visited res h
    simp [find_port_sin_cell_and_position] at h
  | succ fuel ih =>
    have aux : ∀ (l : List InstM) (visited : List Nat) res,
        find_port_sin_insts L fuel l visited = some res →
        GrowsVisited visited res.2 ∧
          ∀ pc yy, res.1 = some (pc, yy) → PortSpec L pc yy := by
      intro l
      induction l with
      | nil =>
        intro visited res h
        simp only [find_port_sin_insts, Option.some.injEq] at h
        subst h
        exact ⟨GrowsVisited.refl visited, by simp⟩
      | cons i rest ihl =>
        intro visited res h
        rw [find_port_sin_insts] at h
        cases hc : find_port_sin_cell_and_position L fuel i.cellIdx visited with
        | none => rw [hc] at h; cases h
        | some val =>
          obtain ⟨ro, v⟩ := val
          have hin := ih i.cellIdx visited (ro, v) hc
          cases ro with
          | some r =>
            rw [hc] at h
            simp only [Option.some.injEq] at h
            subst h
            exact hin
          | none =>
            rw [hc] at h
            have hrest := ihl v res h
            exact ⟨hin.1.trans hrest.1, hrest.2⟩
    intro ci visited res h
    rw [find_port_sin_cell_and_position] at h
    by_cases hv : ci ∈ visited
    · simp only [hv, if_true, Option.some.injEq] at h
      subst h
      exact ⟨GrowsVisited.refl visited, by simp⟩
    · simp only [hv, if_false] at h
      cases hf : (getCell L ci).insts.find? (isPortInst L) with
      | some i =>
        rw [hf] at h
        simp only [Option.some.injEq] at h
        subst h
        refine ⟨GrowsVisited.cons hv, ?_⟩
        intro pc yy hr
        simp only [Option.some.injEq, Prod.mk.injEq] at hr
        exact ⟨ci, i, List.mem_of_find?_eq_some hf, List.find?_some hf,
          hr.1.symm, hr.2.symm⟩
      | none =>
        rw [hf] at h
        have := aux (getCell L ci).insts (ci :: visited) res h
        exact ⟨(GrowsVisited.cons hv).trans this.1, this.2⟩

/-- Fuel sufficiency: with fuel strictly exceeding the number of
unvisited cells, find_port_sin_cell_and_position never exhausts its
fuel. -/
theorem find_port_sin_total (L : List CellM) :
    ∀ (fuel ci : Nat) (visited : List Nat),
      unvisited L.length visited < fuel →
      (find_port_sin_cell_and_position L fuel ci visited).isSome := by
  intro fuel
  induction fuel with
  | zero => intro ci visited h; omega
  | succ fuel ih =>
    have aux : ∀ (l : List InstM) (visited : List Nat),
        unvisited L.length visited < fuel →
        (find_port_sin_insts L fuel l visited).isSome := by
      intro l
      induction l with
      | nil => intro visited _; simp [find_port_sin_insts]
      | cons i rest ihl =>
        intro visited hlt
        rw [find_port_sin_insts]
        cases hc : find_port_sin_cell_and_position L fuel i.cellIdx visited with
        | none =>
          have := ih i.cellIdx visited hlt
          rw [hc] at this
          cases this
        | some val =>
          obtain ⟨ro, v⟩ := val
          cases ro with
          | some r => simp
          | none =>
            have hgrow := (find_port_sin_sound L fuel i.cellIdx visited
              (none, v) hc).1
            have hle := unvisited_subset_le L.length hgrow.subset
            exact ihl v (lt_of_le_of_lt hle hlt)
    intro ci visited hlt
    rw [find_port_sin_cell_and_position]
    by_cases hv : ci ∈ visited
    · simp [hv]
    · simp only [hv, if_false]
      cases hf : (getCell L ci).insts.find? (isPortInst L) with
      | some i => simp
      | none =>
        by_cases hlen : ci < L.length
        · have hdec := unvisited_cons_lt visited hlen hv
          exact aux (getCell L ci).insts (ci :: visited) (by omega)
        · have hempty : (getCell L ci).insts = [] := by
            have : L[ci]? = none := by
              rw [List.getElem?_eq_none]
              omega
            simp [getCell, this]
          rw [hempty]
          simp [find_port_sin_insts]

/-- C3 counterexample: in c3_layout the port marker sits one level down,
inside cell 1, which cell 0 instantiates at a vertical offset of 100.
Searching cell 0 returns the y coordinate 0, which is the center of the
port instance in the frame of cell 1; the center of the port instance in
the frame of the searched cell 0 is y = 100.  So the returned y is not
expressed in the searched cell's own local frame. -/
theorem find_port_sin_nested_frame_counterexample :
    find_port_sin_cell_and_position c3_layout 3 0 [] =
      some (some (2, 0), [1, 0]) ∧
    (((⟨0, false, 0, 100⟩ : KTrans) * KTrans.idT).apply (0, 0)).2 = 100 ∧
    (0 : Int) ≠ 100 := by
  refine ⟨?_, by decide, by decide⟩
  simp [find_port_sin_cell_and_position, find_port_sin_insts, c3_layout,
    getCell, isPortInst, containsS, strHas, strStarts, KTrans.apply,
    KTrans.lin, rotP, mirP, KTrans.idT, List.find?]

/-- C3 (amended): whenever find_port_sin_cell_and_position returns a hit,
the hit is the template cell of an instance whose template name contains
port_SiN found directly inside some cell of the layout, and the returned
y coordinate is the y of the transformed bounding-box center of that
instance in the local frame of the cell that directly contains it (the
searched cell's own frame only when the match is among its direct
instances); when no cell of the layout contains a port-marker instance
the returned value is None. -/
theorem find_port_sin_returns_center_in_containing_cell_frame
    (L : List CellM) (fuel ci : Nat) (visited : List Nat)
    (r : Option (Nat × Int)) (v : List Nat)
    (h : find_port_sin_cell_and_position L fuel ci visited = some (r, v)) :
    (∀ pc y, r = some (pc, y) → PortSpec L pc y) ∧
    (NoPortAnywhere L → r = none) := by
  have hs := find_port_sin_sound L fuel ci visited (r, v) h
  refine ⟨fun pc y hr => hs.2 pc y hr, ?_⟩
  intro hnp
  cases r with
  | none => rfl
  | some p =>
    obtain ⟨pc, y⟩ := p
    obtain ⟨j, i, hmem, hport, -, -⟩ := hs.2 pc y rfl
    rw [hnp j i hmem] at hport
    cases hport

/-- Witness for the amended C3 on the concrete layout c3_layout. -/
theorem find_port_sin_returns_center_in_containing_cell_frame_witness :
    find_port_sin_cell_and_position c3_layout 3 0 [] =
      some (some (2, 0), [1, 0]) ∧ PortSpec c3_layout 2 0 := by
  have he : find_port_sin_cell_and_position c3_layout 3 0 [] =
      some (some (2, 0), [1, 0]) := by
    simp [find_port_sin_cell_and_position, find_port_sin_insts, c3_layout,
      getCell, isPortInst, containsS, strHas, strStarts, KTrans.apply,
      KTrans.lin, rotP, mirP, KTrans.idT, List.find?]
  exact ⟨he,
    (find_port_sin_returns_center_in_containing_cell_frame c3_layout 3 0 []
      (some (2, 0)) [1, 0] he).1 2 0 rfl⟩

/-- C7: on any layout, including cyclic or diamond-shaped hierarchies,
find_port_sin_cell_and_position terminates whenever the fuel exceeds the
number of cells (the visited set makes every cell be entered at most
once, so the returned visited set has no duplicates), and when the layout
contains no port-marker instance at all the search returns None instead
of looping. -/
theorem find_port_sin_terminates_on_cycles
    (L : List CellM) (fuel ci : Nat) (hfuel : L.length < fuel) :
    (∃ res, find_port_sin_cell_and_position L fuel ci [] = some res) ∧
    (∀ r v, find_port_sin_cell_and_position L fuel ci [] = some (r, v) →
      v.Nodup ∧ (NoPortAnywhere L → r = none)) := by
  constructor
  · have hs := find_port_sin_total L fuel ci []
      (lt_of_le_of_lt (unvisited_le L.length []) hfuel)
    exact Option.isSome_iff_exists.mp hs
  · intro r v h
    have hs := find_port_sin_sound L fuel ci [] (r, v) h
    constructor
    · obtain ⟨new, hnew, hnd, -⟩ := hs.1
      have hv : v = new ++ [] := hnew
      rw [hv]
      simpa using hnd
    · intro hnp
      cases r with
      | none => rfl
      | some p =>
        obtain ⟨pc, y⟩ := p
        obtain ⟨j, i, hmem, hport, -, -⟩ := hs.2 pc y rfl
        rw [hnp j i hmem] at hport
        cases hport

/-- Witness for C7 on the concrete cyclic layout c7_layout. -/
theorem find_port_sin_terminates_on_cycles_witness :
    c7_layout.length < 3 ∧
    (∃ res, find_port_sin_cell_and_position c7_layout 3 0 [] = some res) ∧
    (∀ r v, find_port_sin_cell_and_position c7_layout 3 0 [] = some (r, v) →
      v.Nodup ∧ (NoPortAnywhere c7_layout → r = none)) :=
  ⟨by decide, find_port_sin_terminates_on_cycles c7_layout 3 0 (by decide)⟩

/-- C4 counterexample: a pair whose local export raises after the tapeout
export succeeded fails (the error is logged) yet leaves the artifact
written in the tapeout location, so a failing pair does not always
produce no output file. -/
theorem piclet_pair_failure_leaves_tapeout_file :
    generate_piclets_pair c4_run = ([Loc.tapeout], true) ∧
    (generate_piclets_pair c4_run).2 = true ∧
    (generate_piclets_pair c4_run).1 ≠ [] := by
  refine ⟨rfl, rfl, by decide⟩

/-- C4 (amended): for every pair, an exception raised before the first
(tapeout) export completes leaves no output file at all; a failing pair
never has a file in the local piclets directory, though a failure during
the local export leaves the already written tapeout file in place; every
failure is logged and the batch always continues, processing every
pair. -/
theorem piclet_pair_failure_logs_and_continues (r : PairRun) (rs : List PairRun) :
    ((r.assembleOk = false ∨ r.tapeoutPathExists = false ∨
        r.exportTapeoutOk = false) → (generate_piclets_pair r).1 = []) ∧
    ((generate_piclets_pair r).2 = true → Loc.piclets ∉ (generate_piclets_pair r).1) ∧
    ((generate_piclets_pair r).1 = [] → (generate_piclets_pair r).2 = true) ∧
    (generate_piclets_batch rs).length = rs.length := by
  obtain ⟨a, p, t, l⟩ := r
  refine ⟨?_, ?_, ?_, by simp [generate_piclets_batch]⟩ <;>
    cases a <;> cases p <;> cases t <;> cases l <;> simp [generate_piclets_pair]

/-- Witness for the amended C4 at a concrete failing pair. -/
theorem piclet_pair_failure_logs_and_continues_witness :
    ((⟨false, true, true, true⟩ : PairRun).assembleOk = false ∨
      (⟨false, true, true, true⟩ : PairRun).tapeoutPathExists = false ∨
      (⟨false, true, true, true⟩ : PairRun).exportTapeoutOk = false) ∧
    (generate_piclets_pair ⟨false, true, true, true⟩).1 = [] :=
  ⟨Or.inl rfl,
    (piclet_pair_failure_logs_and_continues ⟨false, true, true, true⟩ []).1
      (Or.inl rfl)⟩

/-- C9: when the email is not cached and every response is a 403 rate
limit, get_github_username_from_api never returns a value no matter how
many attempts are observed, and every retry is preceded by exactly the
same fixed 60 second sleep: no retry bound, no backoff growth. -/
theorem github_api_rate_limit_never_returns (resp : Nat → ApiResp)
    (cache : List (String × Option String)) (email : String)
    (hrl : ∀ k, resp k = ApiResp.rateLimited)
    (hc : lookupD cache email = none) :
    ∀ fuel attempt,
      (get_github_username_from_api resp cache email fuel attempt).1 = none ∧
      (get_github_username_from_api resp cache email fuel attempt).2 =
        List.replicate fuel 60 := by
  intro fuel
  induction fuel with
  | zero => intro attempt; exact ⟨rfl, rfl⟩
  | succ fuel ih =>
    intro attempt
    have h1 := (ih (attempt + 1)).1
    have h2 := (ih (attempt + 1)).2
    rw [get_github_username_from_api, hc, hrl]
    refine ⟨h1, ?_⟩
    show 60 :: (get_github_username_from_api resp cache email fuel (attempt + 1)).2 =
      List.replicate (fuel + 1) 60
    rw [List.replicate_succ, h2]

/-- Witness for C9: two attempts against an always rate-limited API. -/
theorem github_api_rate_limit_never_returns_witness :
    (∀ k, c9_resp k = ApiResp.rateLimited) ∧
    lookupD ([] : List (String × Option String)) "a@b.c" = none ∧
    (get_github_username_from_api c9_resp [] "a@b.c" 2 0).1 = none ∧
    (get_github_username_from_api c9_resp [] "a@b.c" 2 0).2 =
      List.replicate 2 60 :=
  ⟨fun _ => rfl, rfl,
    (github_api_rate_limit_never_returns c9_resp [] "a@b.c"
      (fun _ => rfl) rfl 2 0).1,
    (github_api_rate_limit_never_returns c9_resp [] "a@b.c"
      (fun _ => rfl) rfl 2 0).2⟩

/-- C10: get_github_username is total at its interface: any exception in
the try body yields the string unknown instead of propagating; when no
exception occurs the wrapper returns the body value; a failed or empty
git query yields unknown; and when the noreply extraction, the fork
matching, the API lookup and the email parsing all fail (no at sign in
the email), it yields unknown. -/
theorem get_github_username_total_unknown_fallback (o : UserOracle) :
    (get_github_username_body o = Except.error () →
      get_github_username o = "unknown") ∧
    (get_github_username_body o = Except.ok (get_github_username o) ∨
      get_github_username o = "unknown") ∧
    (o.gitOk = false ∨ o.email = "" → get_github_username o = "unknown") ∧
    (o.forkMatch = none → o.apiResult = none →
      containsS "@" o.email = false → get_github_username o = "unknown") := by
  obtain ⟨ra, g, em, fm, ar⟩ := o
  cases ra with
  | true =>
    refine ⟨fun _ => rfl, Or.inr rfl, fun _ => rfl, fun _ _ _ => rfl⟩
  | false =>
    refine ⟨?_, Or.inl rfl, ?_, ?_⟩
    · intro h
      simp [get_github_username_body] at h
    · intro h
      rcases h with h | h
      · have hg : g = false := h
        subst hg
        rfl
      · have he : em = "" := h
        subst he
        cases g <;> rfl
    · intro hfm har hat
      subst hfm; subst har
      by_cases hg : (g && (em != "")) = true
      · simp [get_github_username, get_github_username_body,
          github_username_resolve, hg, hat]
      · simp [get_github_username, get_github_username_body,
          github_username_resolve, hg]

/-- Witness for C10 at a concrete oracle where every method fails. -/
theorem get_github_username_total_unknown_fallback_witness :
    c10_oracle.forkMatch = none ∧ c10_oracle.apiResult = none ∧
    containsS "@" c10_oracle.email = false ∧
    get_github_username c10_oracle = "unknown" :=
  ⟨rfl, rfl, by decide,
    (get_github_username_total_unknown_fallback c10_oracle).2.2.2 rfl rfl
      (by decide)⟩

/-- One cascade step changes the disconnected count exactly by whether
the line matches disconnected pin case-insensitively. -/
theorem parse_line_disconnected (acc : ErrorCounts) (line : String) :
    (parse_verification_line acc line).disconnected_pins =
      acc.disconnected_pins +
        (if containsS "disconnected pin" (lowerS line) then 1 else 0) := by
  simp only [parse_verification_line]
  split_ifs <;> rfl

/-- The parsing fold never decreases the disconnected count. -/
theorem foldl_disconnected_le (lines : List String) :
    ∀ acc : ErrorCounts, acc.disconnected_pins ≤
      (lines.foldl parse_verification_line acc).disconnected_pins := by
  induction lines with
  | nil => intro acc; exact le_refl _
  | cons l rest ih =>
    intro acc
    calc acc.disconnected_pins
        ≤ (parse_verification_line acc l).disconnected_pins := by
          rw [parse_line_disconnected]; omega
      _ ≤ _ := ih _

/-- A line matching disconnected pin makes the parsed count positive. -/
theorem parse_disconnected_pos (out : String)
    (h : ∃ line ∈ splitLines out,
      containsS "disconnected pin" (lowerS line) = true) :
    0 < (parse_verification_errors out).disconnected_pins := by
  unfold parse_verification_errors
  obtain ⟨line, hmem, hmatch⟩ := h
  suffices haux : ∀ (lines : List String) (acc : ErrorCounts), line ∈ lines →
      0 < (lines.foldl parse_verification_line acc).disconnected_pins from
    haux _ zeroCounts hmem
  intro lines
  induction lines with
  | nil => intro acc hl; cases hl
  | cons l rest ih =>
    intro acc hl
    rcases List.mem_cons.mp hl with rfl | hr
    · simp only [List.foldl_cons]
      have h1 : 0 < (parse_verification_line acc line).disconnected_pins := by
        rw [parse_line_disconnected, hmatch]
        simp
      exact lt_of_lt_of_le h1 (foldl_disconnected_le rest _)
    · exact ih _ hr

/-- The error summary only accumulates entries. -/
theorem load_step_summary_mono (st : LoadState) (f : SubOracle) (e : String × ErrorCounts)
    (h : e ∈ st.summary) : e ∈ (load_submission_step st f).summary := by
  unfold load_submission_step
  split_ifs <;> simp [h]

/-- The error summary only accumulates entries along the whole fold. -/
theorem load_foldl_summary_mono (files : List SubOracle) :
    ∀ (st : LoadState) (e : String × ErrorCounts), e ∈ st.summary →
      e ∈ (files.foldl load_submission_step st).summary := by
  induction files with
  | nil => intro st e h; exact h
  | cons f rest ih =>
    intro st e h
    exact ih _ e (load_step_summary_mono st f e h)

/-- A new submission entry carries the processed file name. -/
theorem load_step_submissions (st : LoadState) (f : SubOracle)
    (p : String × String) (h : p ∈ (load_submission_step st f).submissions) :
    p ∈ st.submissions ∨ p.1 = f.filename := by
  simp only [load_submission_step] at h
  split_ifs at h
  all_goals
    first
      | exact Or.inl h
      | (rcases List.mem_append.mp h with h2 | h2
         · exact Or.inl h2
         · simp only [List.mem_singleton] at h2
           exact Or.inr (by rw [h2]))

/-- Submission entries come from the initial state or the folded files. -/
theorem load_foldl_submissions (files : List SubOracle) :
    ∀ (st : LoadState) (p : String × String),
      p ∈ (files.foldl load_submission_step st).submissions →
      p ∈ st.submissions ∨ p.1 ∈ files.map (fun g => g.filename) := by
  induction files with
  | nil => intro st p h; exact Or.inl h
  | cons f rest ih =>
    intro st p h
    rcases ih _ p h with h2 | h2
    · rcases load_step_submissions st f p h2 with h3 | h3
      · exact Or.inl h3
      · exact Or.inr (by simp [h3])
    · exact Or.inr (List.mem_cons_of_mem _ h2)

/-- A skipped file keeps the submissions unchanged and appends its
details to the summary. -/
theorem load_step_skipped (st : LoadState) (f : SubOracle)
    (hskip : skipsFile f = true) (herr : 0 < f.numErrors) :
    (load_submission_step st f).submissions = st.submissions ∧
    (f.filename, parse_verification_errors f.report) ∈
      (load_submission_step st f).summary := by
  unfold load_submission_step
  rw [if_pos hskip, if_pos herr]
  exact ⟨rfl, List.mem_append_right _ (by simp)⟩

/-- Exclusion invariant for the loading loop: a file with disconnected
pins never contributes a submission, and its parsed details land in the
summary. -/
theorem load_aux_excluded (f : SubOracle) (hskip : skipsFile f = true)
    (herr : 0 < f.numErrors) :
    ∀ (files : List SubOracle) (st : LoadState),
      f ∈ files → (files.map (fun g => g.filename)).Nodup →
      (∀ p ∈ st.submissions, p.1 ≠ f.filename) →
      (∀ p ∈ (files.foldl load_submission_step st).submissions,
        p.1 ≠ f.filename) ∧
      (f.filename, parse_verification_errors f.report) ∈
        (files.foldl load_submission_step st).summary := by
  intro files
  induction files with
  | nil => intro st h; cases h
  | cons g rest ih =>
    intro st hmem hnd hinv
    simp only [List.map_cons, List.nodup_cons] at hnd
    rcases List.mem_cons.mp hmem with rfl | hr
    · constructor
      · intro p hp
        rcases load_foldl_submissions rest _ p hp with h2 | h2
        · rw [(load_step_skipped st f hskip herr).1] at h2
          exact hinv p h2
        · intro heq
          exact hnd.1 (heq ▸ h2)
      · exact load_foldl_summary_mono rest _ _
          (load_step_skipped st f hskip herr).2
    · have hgf : g.filename ≠ f.filename := by
        intro heq
        exact hnd.1 (heq ▸ List.mem_map_of_mem (fun x => x.filename) hr)
      apply ih _ hr hnd.2
      intro p hp
      rcases load_step_submissions st g p hp with h2 | h2
      · exact hinv p h2
      · rw [h2]; exact hgf

/-- C6: a submission file whose verbose verification report contains a
line matching disconnected pin case-insensitively, and whose check
reported a positive error count, is excluded from the returned
submissions list (hence used in no PIClet pair) while its categorized
error counts are recorded in the error summary rendered by
print_error_summary_table. -/
theorem disconnected_pin_submissions_excluded (files : List SubOracle)
    (f : SubOracle) (hmem : f ∈ files)
    (hline : ∃ line ∈ splitLines f.report,
      containsS "disconnected pin" (lowerS line) = true)
    (herr : 0 < f.numErrors)
    (hnd : (files.map (fun g => g.filename)).Nodup) :
    (∀ p ∈ (load_submission_designs files).1, p.1 ≠ f.filename) ∧
    (f.filename, parse_verification_errors f.report) ∈
      (load_submission_designs files).2 := by
  have hpos := parse_disconnected_pos f.report hline
  have hskip : skipsFile f = true := by
    unfold skipsFile
    simp [herr, hpos]
  exact load_aux_excluded f hskip herr files ⟨[], [], []⟩ hmem hnd (by simp)

/-- Witness for C6 on a concrete one-file batch. -/
theorem disconnected_pin_submissions_excluded_witness :
    c6_file ∈ [c6_file] ∧
    (∃ line ∈ splitLines c6_file.report,
      containsS "disconnected pin" (lowerS line) = true) ∧
    0 < c6_file.numErrors ∧
    (∀ p ∈ (load_submission_designs [c6_file]).1, p.1 ≠ c6_file.filename) ∧
    (c6_file.filename, parse_verification_errors c6_file.report) ∈
      (load_submission_designs [c6_file]).2 := by
  refine ⟨by simp, by decide, by decide, ?_⟩
  exact disconnected_pin_submissions_excluded [c6_file] c6_file (by simp)
    (by decide) (by decide) (by decide)

/-- The decimal digit of a value below ten parses back to it. -/
theorem decVal_decDigit (m : Nat) (h : m < 10) : decVal (decDigit m) = m := by
  interval_cases m <;> rfl

/-- With sufficient fuel, parsing the rendered digits gives the number
back. -/
theorem decParse_decDigitsAux :
    ∀ (fuel n : Nat), n < fuel → decParse (decDigitsAux fuel n) = n := by
  intro fuel
  induction fuel with
  | zero => intro n h; omega
  | succ fuel ih =>
    intro n h
    rw [decDigitsAux]
    split_ifs with h10
    · simp [decParse, decVal_decDigit n h10]
    · have hdiv : n / 10 < n := Nat.div_lt_self (by omega) (by omega)
      have h1 := ih (n / 10) (by omega)
      simp only [decParse, List.foldl_append, List.foldl_cons,
        List.foldl_nil] at h1 ⊢
      rw [h1, decVal_decDigit (n % 10) (by omega)]
      omega

/-- Parsing the decimal rendering gives the number back. -/
theorem decParse_decDigits (n : Nat) : decParse (decDigits n) = n :=
  decParse_decDigitsAux (n + 1) n (by omega)

/-- The decimal rendering is injective. -/
theorem decRepr_inj {a b : Nat} (h : decRepr a = decRepr b) : a = b := by
  have hd : decDigits a = decDigits b := congrArg String.data h
  have := congrArg decParse hd
  rwa [decParse_decDigits, decParse_decDigits] at this

/-- The decimal rendering is never empty. -/
theorem decDigits_ne_nil (n : Nat) : decDigits n ≠ [] := by
  rw [decDigits, decDigitsAux]
  split_ifs <;> simp

/-- The decimal rendering has positive length. -/
theorem decRepr_length_pos (n : Nat) : 0 < (decRepr n).length := by
  have h := decDigits_ne_nil n
  cases hd : decDigits n with
  | nil => exact absurd hd h
  | cons c rest =>
    simp [decRepr, String.length, hd]

/-- Appending to a fixed string on the left is injective. -/
theorem string_append_cancel (u s t : String) (h : u ++ s = u ++ t) :
    s = t := by
  have hd := congrArg String.data h
  rw [String.data_append, String.data_append] at hd
  have h2 := List.append_cancel_left hd
  cases s with
  | mk ds =>
    cases t with
    | mk dt =>
      simp only at h2
      rw [h2]

/-- The names the code gives two different occurrence indices of the
same base handle differ. -/
theorem rendered_username_inj (u : String) {a b : Nat} (ha : 0 < a)
    (hb : 0 < b) (hne : a ≠ b) :
    rendered_username u a ≠ rendered_username u b := by
  unfold rendered_username
  by_cases h1 : a = 1 <;> by_cases h2 : b = 1
  · omega
  · rw [if_pos h1, if_neg h2]
    intro heq
    have hl := congrArg String.length heq
    rw [String.length_append] at hl
    have := decRepr_length_pos b
    omega
  · rw [if_neg h1, if_pos h2]
    intro heq
    have hl := congrArg String.length heq.symm
    rw [String.length_append] at hl
    have := decRepr_length_pos a
    omega
  · rw [if_neg h1, if_neg h2]
    intro heq
    exact hne (decRepr_inj (string_append_cancel u _ _ heq))

/-- Looking up a key after a dict update. -/
theorem lookupD_setCount (c : List (String × Nat)) (key : String) (n : Nat) :
    ∀ v, lookupD (setCount c key n) v =
      if v = key then some n else lookupD c v := by
  induction c with
  | nil =>
    intro v
    simp only [setCount, lookupD]
    by_cases hv : v = key
    · rw [if_pos (by rw [hv]), if_pos hv]
    · rw [if_neg (fun hk => hv hk.symm), if_neg hv]
  | cons hd rest ih =>
    intro v
    obtain ⟨k, w⟩ := hd
    simp only [setCount]
    by_cases hk : k = key
    · subst hk
      rw [if_pos rfl]
      simp only [lookupD]
      by_cases hv : v = k
      · subst hv
        rw [if_pos rfl, if_pos rfl]
      · rw [if_neg (fun hh => hv hh.symm), if_neg hv,
          if_neg (fun hh => hv hh.symm)]
    · rw [if_neg hk]
      simp only [lookupD]
      by_cases hkv : k = v
      · subst hkv
        rw [if_pos rfl, if_neg hk, if_pos rfl]
      · rw [if_neg hkv, ih v]
        by_cases hv : v = key
        · rw [if_pos hv, if_pos hv]
        · rw [if_neg hv, if_neg hv, if_neg hkv]

/-- One resolution step renders the handle with its new occurrence count
and bumps the counts dict accordingly. -/
theorem resolve_username_spec (c : List (String × Nat)) (u : String)
    (hpos : PosCounts c) :
    (resolve_username c u).1 = rendered_username u (countsVal c u + 1) ∧
    (∀ v, countsVal (resolve_username c u).2 v =
      countsVal c v + if v = u then 1 else 0) ∧
    PosCounts (resolve_username c u).2 := by
  unfold resolve_username
  cases hl : lookupD c u with
  | none =>
    refine ⟨?_, ?_, ?_⟩
    · simp [rendered_username, countsVal, hl]
    · intro v
      by_cases hv : v = u
      · subst hv
        simp only [countsVal, lookupD, if_pos rfl, hl]
        simp
      · have hv2 : ¬(u = v) := fun hh => hv hh.symm
        simp only [countsVal, lookupD, if_neg hv2, if_neg hv]
        simp
    · intro v n hlv
      simp only [lookupD] at hlv
      by_cases hv : u = v
      · rw [if_pos hv] at hlv
        cases hlv
        omega
      · rw [if_neg hv] at hlv
        exact hpos v n hlv
  | some m =>
    have hm : 0 < m := hpos u m hl
    refine ⟨?_, ?_, ?_⟩
    · simp only [countsVal, hl, Option.getD_some, rendered_username]
      rw [if_neg (by omega)]
    · intro v
      simp only [countsVal, lookupD_setCount]
      by_cases hv : v = u
      · subst hv
        rw [if_pos rfl, if_pos rfl]
        simp [hl]
      · rw [if_neg hv, if_neg hv]
        simp
    · intro v n hlv
      rw [lookupD_setCount] at hlv
      by_cases hv : v = u
      · rw [if_pos hv] at hlv
        cases hlv
        omega
      · rw [if_neg hv] at hlv
        exact hpos v n hlv

/-- The resolved-name list has one entry per base username. -/
theorem resolve_from_length :
    ∀ (us : List String) (c : List (String × Nat)),
      (resolve_usernames_from c us).length = us.length := by
  intro us
  induction us with
  | nil => intro c; rfl
  | cons u rest ih => intro c; simp [resolve_usernames_from, ih]

/-- Occurrence formula for the resolved names: starting from a counts
dict with positive entries, the i-th resolved name renders the i-th base
handle with its stored count plus its occurrence index in the batch. -/
theorem resolve_from_getD :
    ∀ (us : List String) (c : List (String × Nat)) (i : Nat),
      PosCounts c → i < us.length →
      (resolve_usernames_from c us).getD i "" =
        rendered_username (us.getD i "")
          (countsVal c (us.getD i "") +
            (us.take (i + 1)).count (us.getD i "")) := by
  intro us
  induction us with
  | nil => intro c i _ hi; simp at hi
  | cons u rest ih =>
    intro c i hpos hi
    obtain ⟨hres, hcv, hpos2⟩ := resolve_username_spec c u hpos
    match i with
    | 0 =>
      simp only [resolve_usernames_from, List.getD_cons_zero,
        List.take_succ_cons, List.take_zero]
      rw [hres]
      congr 1
      simp [List.count_cons]
    | i + 1 =>
      simp only [resolve_usernames_from, List.getD_cons_succ,
        List.take_succ_cons]
      rw [ih (resolve_username c u).2 i hpos2 (by simpa using hi)]
      congr 1
      rw [hcv, List.count_cons]
      by_cases hw : rest.getD i "" = u
      · have hb : (u == rest.getD i "") = true := by
          rw [beq_iff_eq]
          exact hw.symm
        rw [if_pos hw, if_pos hb]
        omega
      · have hb : ¬((u == rest.getD i "") = true) := by
          rw [beq_iff_eq]
          exact fun hh => hw hh.symm
        rw [if_neg hw, if_neg hb]
        omega

/-- Counting within a take is bounded by counting in the list. -/
theorem count_take_le_count (w : String) (n : Nat) (l : List String) :
    (l.take n).count w ≤ l.count w := by
  conv_rhs => rw [← List.take_append_drop n l]
  rw [List.count_append]
  omega

/-- Counting within takes is monotone in the take length. -/
theorem count_take_mono (w : String) (l : List String) {n m : Nat}
    (h : n ≤ m) : (l.take n).count w ≤ (l.take m).count w := by
  have h1 : l.take n = (l.take m).take n := by
    rw [List.take_take, Nat.min_eq_left h]
  rw [h1]
  exact count_take_le_count w n (l.take m)

/-- A handle occurring at index i occurs in the first i+1 entries. -/
theorem count_take_pos (w : String) (l : List String) {i : Nat}
    (hi : i < l.length) (hw : l.getD i "" = w) :
    0 < (l.take (i + 1)).count w := by
  have hiw : l[i]? = some w := by
    rw [List.getElem?_eq_getElem hi]
    rw [List.getD_eq_getElem?_getD, List.getElem?_eq_getElem hi] at hw
    simp only [Option.getD_some] at hw
    rw [hw]
  rw [List.take_succ, hiw]
  simp [List.count_append]

/-- A later occurrence of the same handle has a strictly larger
occurrence count. -/
theorem count_take_lt (w : String) (l : List String) {i j : Nat}
    (hij : i < j) (hj : j < l.length) (hw : l.getD j "" = w) :
    (l.take (i + 1)).count w < (l.take (j + 1)).count w := by
  have hjw : l[j]? = some w := by
    rw [List.getElem?_eq_getElem hj]
    rw [List.getD_eq_getElem?_getD, List.getElem?_eq_getElem hj] at hw
    simp only [Option.getD_some] at hw
    rw [hw]
  calc (l.take (i + 1)).count w
      ≤ (l.take j).count w := count_take_mono w l (by omega)
    _ < (l.take (j + 1)).count w := by
        rw [List.take_succ, hjw]
        simp [List.count_append]

/-- The empty dict has positive entries vacuously. -/
theorem posCounts_nil : PosCounts [] := by
  intro v n h
  simp [lookupD] at h

/-- Two occurrences of the same base handle, the earlier before the
later, resolve to different names. -/
theorem resolve_names_distinct_lt (us : List String) {i j : Nat}
    (hij : i < j) (hj : j < us.length)
    (hsame : us.getD i "" = us.getD j "") :
    (resolve_usernames us).getD i "" ≠ (resolve_usernames us).getD j "" := by
  have hi : i < us.length := lt_trans hij hj
  have hfi := resolve_from_getD us [] i posCounts_nil hi
  have hfj := resolve_from_getD us [] j posCounts_nil hj
  rw [resolve_usernames, hfi, hfj, ← hsame]
  have hz : countsVal [] (us.getD i "") = 0 := by simp [countsVal, lookupD]
  rw [hz]
  simp only [Nat.zero_add]
  exact rendered_username_inj (us.getD i "")
    (count_take_pos _ us hi rfl)
    (Nat.lt_of_lt_of_le (count_take_pos _ us hi rfl)
      (Nat.le_of_lt (count_take_lt _ us hij hj hsame.symm)))
    (Nat.ne_of_lt (count_take_lt _ us hij hj hsame.symm))

/-- The submissions produced by the loading fold carry exactly the
resolved usernames of the files that are not skipped. -/
theorem load_usernames_eq (files : List SubOracle) :
    ∀ st : LoadState,
      (files.foldl load_submission_step st).submissions.map Prod.snd =
        st.submissions.map Prod.snd ++
          resolve_usernames_from st.counts
            ((files.filter (fun f => !skipsFile f)).map (fun f => f.username)) := by
  induction files with
  | nil => intro st; simp [resolve_usernames_from]
  | cons f rest ih =>
    intro st
    simp only [List.foldl_cons]
    rw [ih (load_submission_step st f)]
    by_cases hs : skipsFile f = true
    · have h1 : (load_submission_step st f).submissions = st.submissions := by
        simp only [load_submission_step]
        rw [if_pos hs]
      have h2 : (load_submission_step st f).counts = st.counts := by
        simp only [load_submission_step]
        rw [if_pos hs]
      rw [h1, h2]
      simp [List.filter_cons, hs]
    · have h1 : (load_submission_step st f).submissions =
          st.submissions ++ [(f.filename, (resolve_username st.counts f.username).1)] := by
        simp only [load_submission_step]
        rw [if_neg hs]
      have h2 : (load_submission_step st f).counts =
          (resolve_username st.counts f.username).2 := by
        simp only [load_submission_step]
        rw [if_neg hs]
      rw [h1, h2]
      simp only [List.filter_cons, Bool.not_eq_true] at *
      rw [if_pos (by simp [hs])]
      simp [resolve_usernames_from]

/-- C8 (amended): load_submission_designs assigns the kept submissions
exactly the resolved names of their base handles in processing order;
for every batch the k-th occurrence of a base handle is named by the
handle itself for k = 1 and by the handle followed by the decimal k for
k greater than one; and two submissions sharing the same base handle
never receive the same resolved name — though a submission whose
distinct base handle textually equals a suffixed form of another handle
can still collide. -/
theorem username_suffix_scheme :
    (∀ files : List SubOracle,
      (load_submission_designs files).1.map Prod.snd =
        resolve_usernames (kept_usernames files)) ∧
    (∀ (us : List String) (i : Nat), i < us.length →
      (resolve_usernames us).getD i "" =
        rendered_username (us.getD i "")
          ((us.take (i + 1)).count (us.getD i ""))) ∧
    (∀ (us : List String) (i j : Nat), i < us.length → j < us.length →
      i ≠ j → us.getD i "" = us.getD j "" →
      (resolve_usernames us).getD i "" ≠ (resolve_usernames us).getD j "") := by
  refine ⟨?_, ?_, ?_⟩
  · intro files
    have h := load_usernames_eq files ⟨[], [], []⟩
    simpa [load_submission_designs, resolve_usernames, kept_usernames] using h
  · intro us i hi
    have h := resolve_from_getD us [] i posCounts_nil hi
    rw [resolve_usernames, h]
    congr 1
    simp [countsVal, lookupD]
  · intro us i j hi hj hij hsame
    rcases Nat.lt_or_ge i j with h | h
    · exact resolve_names_distinct_lt us h hj hsame
    · have hlt : j < i := by omega
      exact Ne.symm (resolve_names_distinct_lt us hlt hi hsame.symm)

/-- Witness for the amended C8: a batch with the handle bob twice. -/
theorem username_suffix_scheme_witness :
    (0 : Nat) < (["bob", "bob"] : List String).length ∧
    (1 : Nat) < (["bob", "bob"] : List String).length ∧
    (resolve_usernames ["bob", "bob"]).getD 0 "" = "bob" ∧
    (resolve_usernames ["bob", "bob"]).getD 1 "" = "bob2" ∧
    (resolve_usernames ["bob", "bob"]).getD 0 "" ≠
      (resolve_usernames ["bob", "bob"]).getD 1 "" := by
  refine ⟨by decide, by decide, by decide, by decide, ?_⟩
  exact username_suffix_scheme.2.2 ["bob", "bob"] 0 1 (by decide) (by decide)
    (by decide) (by decide)

/-- C8 counterexample: in the batch c8_files, two submissions of the
handle alice and one submission of the distinct base handle alice2
resolve to alice, alice2 and alice2, so the second and the third
submission carry identical resolved names. -/
theorem username_suffix_collision_counterexample :
    (load_submission_designs c8_files).1.map Prod.snd =
      ["alice", "alice2", "alice2"] ∧
    ((load_submission_designs c8_files).1.map Prod.snd).getD 1 "" =
      ((load_submission_designs c8_files).1.map Prod.snd).getD 2 "" ∧
    (1 : Nat) ≠ 2 := by
  refine ⟨by decide, by decide, by decide⟩

/-- Updating one cell leaves the others unchanged. -/
theorem getACell_set_ne (L : List ACell) (ci j : Nat) (c : ACell)
    (h : j ≠ ci) : getACell (setACell L ci c) j = getACell L j := by
  unfold getACell setACell
  rw [List.getElem?_set_ne (fun hh => h hh.symm)]

/-- Reading back an updated cell. -/
theorem getACell_set_self (L : List ACell) (ci : Nat) (c : ACell) :
    getACell (setACell L ci c) ci =
      if ci < L.length then c else getACell L ci := by
  unfold getACell setACell
  by_cases h : ci < L.length
  · rw [if_pos h, List.getElem?_set_self h]
    rfl
  · rw [if_neg h, List.set_eq_of_length_le (by omega)]

/-- An out-of-range index reads the empty cell. -/
theorem getACell_out (L : List ACell) (ci : Nat) (h : ¬ci < L.length) :
    getACell L ci = ⟨"", []⟩ := by
  unfold getACell
  rw [List.getElem?_eq_none (by omega)]
  rfl

/-- Every instance produced by the kernel explode is a single
instance. -/
theorem explodeInst_no_array (i : AInst) :
    ∀ x ∈ explodeInst i, is_regular_array x = false := by
  intro x hx
  unfold explodeInst at hx
  cases harr : i.arr with
  | none =>
    rw [harr] at hx
    simp only [List.mem_singleton] at hx
    subst hx
    simp [is_regular_array, harr]
  | some q =>
    obtain ⟨⟨rows, cols⟩, srow, scol⟩ := q
    rw [harr] at hx
    simp only [List.mem_flatMap, List.mem_map] at hx
    obtain ⟨r, -, c, -, rfl⟩ := hx
    simp [is_regular_array]

/-- Exploded instance lists contain no arrays. -/
theorem flatMap_explodeInst_no_arrays (l : List AInst) :
    ∀ x ∈ l.flatMap explodeInst, is_regular_array x = false := by
  intro x hx
  rw [List.mem_flatMap] at hx
  obtain ⟨i, -, hxi⟩ := hx
  exact explodeInst_no_array i x hxi

/-- Exploding a cell without arrays leaves its instances unchanged. -/
theorem flatMap_explodeInst_of_clean (l : List AInst)
    (h : ∀ i ∈ l, is_regular_array i = false) :
    l.flatMap explodeInst = l := by
  induction l with
  | nil => rfl
  | cons i rest ih =>
    have hi := h i (by simp)
    have harr : i.arr = none := by
      unfold is_regular_array at hi
      cases h2 : i.arr with
      | none => rfl
      | some q => rw [h2] at hi; simp at hi
    rw [List.flatMap_cons, ih (fun j hj => h j (by simp [hj]))]
    unfold explodeInst
    rw [harr]
    simp

/-- A cell has count zero exactly when none of its instances is an
array. -/
theorem arraysIn_eq_zero_iff (c : ACell) :
    arraysIn c = 0 ↔ ∀ i ∈ c.insts, is_regular_array i = false := by
  unfold arraysIn
  rw [List.length_eq_zero, List.filter_eq_nil_iff]
  simp

/-- Sequential composition of two explosion passes. -/
theorem explodeSpecN_trans {L L1 L2 : List ACell} {n1 n2 : Nat}
    {visited v1 v2 new1 new2 : List Nat}
    (h1 : ExplodeSpecN L L1 n1 visited v1 new1)
    (h2 : ExplodeSpecN L1 L2 n2 v1 v2 new2) :
    ExplodeSpecN L L2 (n1 + n2) visited v2 (new2 ++ new1) := by
  obtain ⟨hv1, hnd1, hf1, hu1, hc1, hn1, hcov1, hl1⟩ := h1
  obtain ⟨hv2, hnd2, hf2, hu2, hc2, hn2, hcov2, hl2⟩ := h2
  have hsub1 : ∀ j ∈ new1, j ∈ v1 := fun j hj => by
    rw [hv1]; exact List.mem_append_left _ hj
  refine ⟨?_, ?_, ?_, ?_, ?_, ?_, ?_, ?_⟩
  · rw [hv2, hv1, List.append_assoc]
  · rw [List.nodup_append]
    exact ⟨hnd2, hnd1, fun x hx2 hx1 => hf2 x hx2 (hsub1 x hx1)⟩
  · intro j hj
    rcases List.mem_append.mp hj with hj2 | hj1
    · intro hvv
      exact hf2 j hj2 (by rw [hv1]; exact List.mem_append_right _ hvv)
    · exact hf1 j hj1
  · intro j hj
    rw [List.mem_append] at hj
    push_neg at hj
    rw [hu2 j hj.1, hu1 j hj.2]
  · intro j hj
    rcases List.mem_append.mp hj with hj2 | hj1
    · have hbase : getACell L1 j = getACell L j :=
        hu1 j (fun hj1 => hf2 j hj2 (hsub1 j hj1))
      have hcc := hc2 j hj2
      rw [hbase] at hcc
      exact hcc
    · have hj_not2 : j ∉ new2 := fun hj2 => hf2 j hj2 (hsub1 j hj1)
      rw [hu2 j hj_not2]
      exact hc1 j hj1
  · rw [List.map_append, List.sum_append, hn1, hn2]
    have hmap : new2.map (fun j => arraysIn (getACell L1 j)) =
        new2.map (fun j => arraysIn (getACell L j)) := by
      apply List.map_congr_left
      intro j hj2
      rw [hu1 j (fun hj1 => hf2 j hj2 (hsub1 j hj1))]
    rw [← hmap]
    omega
  · intro j hj i hi
    rcases List.mem_append.mp hj with hj2 | hj1
    · exact hcov2 j hj2 i hi
    · have hj_not2 : j ∉ new2 := fun hh => hf2 j hh (hsub1 j hj1)
      rw [hu2 j hj_not2] at hi
      have hcc := hcov1 j hj1 i hi
      rw [hv2]
      exact List.mem_append_right _ hcc
  · rw [hl2, hl1]

/-- Entering a fresh cell, exploding it and processing its children is
one explosion pass for the cell together with its children. -/
theorem explodeSpecN_visit {L L2 : List ACell} {ci : Nat}
    {visited v2 new_c : List Nat} {n2 : Nat}
    (hciv : ci ∉ visited)
    (h2 : ExplodeSpecN
      (setACell L ci ⟨(getACell L ci).name,
        (getACell L ci).insts.flatMap explodeInst⟩)
      L2 n2 (ci :: visited) v2 new_c)
    (hcov : ∀ i ∈ (getACell L ci).insts.flatMap explodeInst,
      i.cellIdx ∈ v2) :
    ExplodeSpecN L L2 (arraysIn (getACell L ci) + n2) visited v2
      (new_c ++ [ci]) := by
  obtain ⟨hv2, hnd2, hf2, hu2, hc2, hn2, hcov2, hl2⟩ := h2
  have hci_not : ci ∉ new_c := fun hh => hf2 ci hh (by simp)
  have hLci : getACell L2 ci =
      getACell (setACell L ci ⟨(getACell L ci).name,
        (getACell L ci).insts.flatMap explodeInst⟩) ci := hu2 ci hci_not
  have hL'ci : getACell (setACell L ci ⟨(getACell L ci).name,
      (getACell L ci).insts.flatMap explodeInst⟩) ci =
      if ci < L.length then
        ⟨(getACell L ci).name, (getACell L ci).insts.flatMap explodeInst⟩
      else getACell L ci := getACell_set_self L ci _
  have hL'ne : ∀ j, j ≠ ci →
      getACell (setACell L ci ⟨(getACell L ci).name,
        (getACell L ci).insts.flatMap explodeInst⟩) j = getACell L j :=
    fun j hj => getACell_set_ne L ci j _ hj
  refine ⟨?_, ?_, ?_, ?_, ?_, ?_, ?_, ?_⟩
  · rw [hv2, List.append_cons]
  · rw [List.nodup_append]
    refine ⟨hnd2, by simp, fun x hx2 hx1 => ?_⟩
    simp only [List.mem_singleton] at hx1
    exact hf2 x hx2 (by simp [hx1])
  · intro j hj
    rcases List.mem_append.mp hj with hj2 | hj1
    · intro hvv
      exact hf2 j hj2 (by simp [hvv])
    · simp only [List.mem_singleton] at hj1
      subst hj1
      exact hciv
  · intro j hj
    rw [List.mem_append] at hj
    push_neg at hj
    have hjne : j ≠ ci := by
      intro hh
      exact hj.2 (by simp [hh])
    rw [hu2 j hj.1, hL'ne j hjne]
  · intro j hj
    rcases List.mem_append.mp hj with hj2 | hj1
    · have hjne : j ≠ ci := fun hh => hf2 j hj2 (by simp [hh])
      have hcc := hc2 j hj2
      rw [hL'ne j hjne] at hcc
      exact hcc
    · simp only [List.mem_singleton] at hj1
      rw [hj1, hLci, hL'ci]
      by_cases hr : ci < L.length
      · rw [if_pos hr]
        exact ⟨rfl, rfl⟩
      · rw [if_neg hr]
        have hcempty : getACell L ci = ⟨"", []⟩ := getACell_out L ci hr
        rw [hcempty]
        exact ⟨rfl, rfl⟩
  · rw [List.map_append, List.sum_append, hn2]
    have hmap : new_c.map (fun j => arraysIn
        (getACell (setACell L ci ⟨(getACell L ci).name,
          (getACell L ci).insts.flatMap explodeInst⟩) j)) =
        new_c.map (fun j => arraysIn (getACell L j)) := by
      apply List.map_congr_left
      intro j hj2
      rw [hL'ne j (fun hh => hf2 j hj2 (by simp [hh]))]
    rw [hmap]
    simp
    omega
  · intro j hj i hi
    rcases List.mem_append.mp hj with hj2 | hj1
    · exact hcov2 j hj2 i hi
    · simp only [List.mem_singleton] at hj1
      rw [hj1, hLci, hL'ci] at hi
      by_cases hr : ci < L.length
      · rw [if_pos hr] at hi
        exact hcov i hi
      · rw [if_neg hr] at hi
        rw [getACell_out L ci hr] at hi
        simp at hi
  · rw [hl2]
    simp [setACell]

/-- Soundness of explode_regular_arrays: every completed run satisfies
the explosion pass specification, and the entered cell ends up
visited. -/
theorem explode_sound :
    ∀ (fuel : Nat) (L : List ACell) (ci : Nat) (visited : List Nat)
      (res : List ACell × Nat × List Nat),
      explode_regular_arrays L fuel ci visited = some res →
      (∃ new, ExplodeSpecN L res.1 res.2.1 visited res.2.2 new) ∧
        ci ∈ res.2.2 := by
  intro fuel
  induction fuel with
  | zero => intro L ci visited res h; simp [explode_regular_arrays] at h
  | succ fuel ih =>
    have aux : ∀ (insts : List AInst) (L : List ACell) (visited : List Nat)
        (res : List ACell × Nat × List Nat),
        explode_children L fuel insts visited = some res →
        (∃ new, ExplodeSpecN L res.1 res.2.1 visited res.2.2 new) ∧
          ∀ i ∈ insts, i.cellIdx ∈ res.2.2 := by
      intro insts
      induction insts with
      | nil =>
        intro L visited res h
        simp only [explode_children, Option.some.injEq] at h
        subst h
        refine ⟨⟨[], ?_⟩, by simp⟩
        refine ⟨by simp, by simp, by simp, fun j _ => rfl, by simp, rfl,
          by simp, rfl⟩
      | cons i rest ihl =>
        intro L visited res h
        rw [explode_children] at h
        cases hc1 : explode_regular_arrays L fuel i.cellIdx visited with
        | none => rw [hc1] at h; cases h
        | some r1 =>
          obtain ⟨L1, n1, v1⟩ := r1
          rw [hc1] at h
          have h2 : (match explode_children L1 fuel rest v1 with
              | none => none
              | some (L2, n2, v2) => some (L2, n1 + n2, v2)) = some res := h
          clear h
          cases hc2 : explode_children L1 fuel rest v1 with
          | none => rw [hc2] at h2; cases h2
          | some r2 =>
            obtain ⟨L2, n2, v2⟩ := r2
            rw [hc2] at h2
            simp only [Option.some.injEq] at h2
            subst h2
            obtain ⟨⟨new1, hs1⟩, hci1⟩ := ih L i.cellIdx visited (L1, n1, v1) hc1
            obtain ⟨⟨new2, hs2⟩, hcov2⟩ := ihl L1 v1 (L2, n2, v2) hc2
            refine ⟨⟨new2 ++ new1, explodeSpecN_trans hs1 hs2⟩, ?_⟩
            intro i2 hi2
            rcases List.mem_cons.mp hi2 with rfl | hr
            · obtain ⟨hv2eq, -⟩ := hs2
              rw [hv2eq]
              exact List.mem_append_right _ hci1
            · exact hcov2 i2 hr
    intro L ci visited res h
    rw [explode_regular_arrays] at h
    by_cases hv : ci ∈ visited
    · rw [if_pos hv] at h
      simp only [Option.some.injEq] at h
      subst h
      refine ⟨⟨[], ?_⟩, hv⟩
      refine ⟨by simp, by simp, by simp, fun j _ => rfl, by simp, rfl,
        by simp, rfl⟩
    · rw [if_neg hv] at h
      simp only [] at h
      cases hc : explode_children
          (setACell L ci ⟨(getACell L ci).name,
            (getACell L ci).insts.flatMap explodeInst⟩) fuel
          ((getACell L ci).insts.flatMap explodeInst) (ci :: visited) with
      | none => rw [hc] at h; cases h
      | some r =>
        obtain ⟨L2, n2, v2⟩ := r
        rw [hc] at h
        simp only [Option.map_some', Option.some.injEq] at h
        subst h
        obtain ⟨⟨new_c, hs⟩, hcov⟩ := aux _ _ _ (L2, n2, v2) hc
        refine ⟨⟨new_c ++ [ci], explodeSpecN_visit hv hs hcov⟩, ?_⟩
        obtain ⟨hv2eq, -⟩ := hs
        rw [hv2eq]
        exact List.mem_append_right _ (by simp)

/-- Fuel sufficiency for explode_regular_arrays: fuel strictly exceeding
the number of unvisited cells always completes. -/
theorem explode_total :
    ∀ (fuel : Nat) (L : List ACell) (ci : Nat) (visited : List Nat),
      unvisited L.length visited < fuel →
      (explode_regular_arrays L fuel ci visited).isSome := by
  intro fuel
  induction fuel with
  | zero => intro L ci visited h; omega
  | succ fuel ih =>
    have aux : ∀ (insts : List AInst) (L : List ACell) (visited : List Nat),
        unvisited L.length visited < fuel →
        (explode_children L fuel insts visited).isSome := by
      intro insts
      induction insts with
      | nil => intro L visited _; simp [explode_children]
      | cons i rest ihl =>
        intro L visited hlt
        rw [explode_children]
        cases hc1 : explode_regular_arrays L fuel i.cellIdx visited with
        | none =>
          have hsome := ih L i.cellIdx visited hlt
          rw [hc1] at hsome
          cases hsome
        | some r1 =>
          obtain ⟨L1, n1, v1⟩ := r1
          obtain ⟨⟨new1, hs1⟩, -⟩ :=
            explode_sound fuel L i.cellIdx visited (L1, n1, v1) hc1
          obtain ⟨hv1eq, -, -, -, -, -, -, hlen⟩ := hs1
          have hv1eq2 : v1 = new1 ++ visited := hv1eq
          have hlen2 : L1.length = L.length := hlen
          have hsub : ∀ x ∈ visited, x ∈ v1 := fun x hx => by
            rw [hv1eq2]; exact List.mem_append_right _ hx
          have hle : unvisited L1.length v1 ≤ unvisited L.length visited := by
            rw [hlen2]
            exact unvisited_subset_le _ hsub
          have hrest := ihl L1 v1 (by omega)
          show (match explode_children L1 fuel rest v1 with
            | none => none
            | some (L2, n2, v2) => some (L2, n1 + n2, v2)).isSome
          cases hch : explode_children L1 fuel rest v1 with
          | none => rw [hch] at hrest; simp at hrest
          | some r2 => simp
    intro L ci visited hlt
    rw [explode_regular_arrays]
    by_cases hv : ci ∈ visited
    · rw [if_pos hv]; simp
    · rw [if_neg hv]
      simp only []
      rw [Option.isSome_map']
      by_cases hlen : ci < L.length
      · have hdec := unvisited_cons_lt visited hlen hv
        apply aux
        rw [setACell, List.length_set]
        omega
      · have hempty : (getACell L ci).insts = [] := by
          rw [getACell_out L ci hlen]
        rw [hempty]
        simp [explode_children]

/-- A run over cells that are already free of arrays (and whose children
stay within that clean set) explodes nothing and changes no cell. -/
theorem explode_clean (Lbase : List ACell) (S : Nat → Prop)
    (hS1 : ∀ j, S j → arraysIn (getACell Lbase j) = 0)
    (hS2 : ∀ j, S j → ∀ i ∈ (getACell Lbase j).insts, S i.cellIdx) :
    ∀ (fuel : Nat) (L : List ACell) (ci : Nat) (visited : List Nat)
      (res : List ACell × Nat × List Nat),
      (∀ j, getACell L j = getACell Lbase j) →
      (S ci ∨ ci ∈ visited) →
      explode_regular_arrays L fuel ci visited = some res →
      res.2.1 = 0 ∧ (∀ j, getACell res.1 j = getACell Lbase j) := by
  intro fuel
  induction fuel with
  | zero => intro L ci visited res _ _ h; simp [explode_regular_arrays] at h
  | succ fuel ih =>
    have aux : ∀ (insts : List AInst) (L : List ACell) (visited : List Nat)
        (res : List ACell × Nat × List Nat),
        (∀ j, getACell L j = getACell Lbase j) →
        (∀ i ∈ insts, S i.cellIdx) →
        explode_children L fuel insts visited = some res →
        res.2.1 = 0 ∧ (∀ j, getACell res.1 j = getACell Lbase j) := by
      intro insts
      induction insts with
      | nil =>
        intro L visited res hpt _ h
        simp only [explode_children, Option.some.injEq] at h
        subst h
        exact ⟨rfl, hpt⟩
      | cons i rest ihl =>
        intro L visited res hpt hS h
        rw [explode_children] at h
        cases hc1 : explode_regular_arrays L fuel i.cellIdx visited with
        | none => rw [hc1] at h; cases h
        | some r1 =>
          obtain ⟨L1, n1, v1⟩ := r1
          rw [hc1] at h
          have h2 : (match explode_children L1 fuel rest v1 with
              | none => none
              | some (L2, n2, v2) => some (L2, n1 + n2, v2)) = some res := h
          clear h
          have hfst := ih L i.cellIdx visited (L1, n1, v1) hpt
            (Or.inl (hS i (by simp))) hc1
          cases hc2 : explode_children L1 fuel rest v1 with
          | none => rw [hc2] at h2; cases h2
          | some r2 =>
            obtain ⟨L2, n2, v2⟩ := r2
            rw [hc2] at h2
            simp only [Option.some.injEq] at h2
            subst h2
            have hsnd := ihl L1 v1 (L2, n2, v2) hfst.2
              (fun j hj => hS j (by simp [hj])) hc2
            have hn1 : n1 = 0 := hfst.1
            have hn2 : n2 = 0 := hsnd.1
            exact ⟨by simp [hn1, hn2], hsnd.2⟩
    intro L ci visited res hpt hS h
    rw [explode_regular_arrays] at h
    by_cases hv : ci ∈ visited
    · rw [if_pos hv] at h
      simp only [Option.some.injEq] at h
      subst h
      exact ⟨rfl, hpt⟩
    · rw [if_neg hv] at h
      simp only [] at h
      have hSci : S ci := hS.resolve_right hv
      have hclean : arraysIn (getACell L ci) = 0 := by
        rw [hpt ci]; exact hS1 ci hSci
      have hflat : (getACell L ci).insts.flatMap explodeInst =
          (getACell L ci).insts :=
        flatMap_explodeInst_of_clean _ ((arraysIn_eq_zero_iff _).mp hclean)
      rw [hflat] at h
      have hpt2 : ∀ j, getACell (setACell L ci ⟨(getACell L ci).name,
          (getACell L ci).insts⟩) j = getACell Lbase j := by
        intro j
        by_cases hj : j = ci
        · subst hj
          rw [getACell_set_self]
          by_cases hr : j < L.length
          · rw [if_pos hr]
            exact hpt j
          · rw [if_neg hr]
            exact hpt j
        · rw [getACell_set_ne L ci j _ hj]
          exact hpt j
      have htargets : ∀ i ∈ (getACell L ci).insts, S i.cellIdx := by
        intro i hi
        apply hS2 ci hSci
        rw [← hpt ci]
        exact hi
      cases hc : explode_children (setACell L ci ⟨(getACell L ci).name,
          (getACell L ci).insts⟩) fuel (getACell L ci).insts
          (ci :: visited) with
      | none => rw [hc] at h; cases h
      | some r =>
        obtain ⟨L2, n2, v2⟩ := r
        rw [hc] at h
        simp only [Option.map_some', Option.some.injEq] at h
        subst h
        have hch := aux _ _ _ (L2, n2, v2) hpt2 htargets hc
        have hn2 : n2 = 0 := hch.1
        have hpt3 : ∀ j, getACell L2 j = getACell Lbase j := hch.2
        exact ⟨by simp [hclean, hn2], hpt3⟩

/-- C5: with fuel exceeding the number of cells, explode_regular_arrays
completes; the count it returns is exactly the number of regular-array
instances the visited cells contained; every visited cell has each of
its R-row C-column arrays expanded in place into the R*C single
instances at base transform translated by r*step_row + c*step_col; and
re-running the function on the resulting layout from the same root
explodes zero further arrays. -/
theorem explode_regular_arrays_count_exact_idempotent
    (L : List ACell) (fuel r : Nat) (hfuel : L.length < fuel) :
    ∃ L2 n v2, explode_regular_arrays L fuel r [] = some (L2, n, v2) ∧
      n = (v2.map (fun j => arraysIn (getACell L j))).sum ∧
      (∀ j ∈ v2, (getACell L2 j).insts =
        (getACell L j).insts.flatMap explodeInst) ∧
      (∀ (i : AInst) (rows cols : Nat) (srow scol : Int × Int),
        i.arr = some ((rows, cols), srow, scol) →
        (explodeInst i).length = rows * cols ∧
        ∀ r' c', r' < rows → c' < cols →
          (⟨i.cellIdx, translT (vadd (vsmul r' srow) (vsmul c' scol)) * i.trans,
            none⟩ : AInst) ∈ explodeInst i) ∧
      (∀ L3 n3 v3, explode_regular_arrays L2 fuel r [] = some (L3, n3, v3) →
        n3 = 0) := by
  have hsome := explode_total fuel L r []
    (lt_of_le_of_lt (unvisited_le L.length []) hfuel)
  obtain ⟨⟨L2, n, v2⟩, hrun⟩ := Option.isSome_iff_exists.mp hsome
  obtain ⟨⟨new, hs⟩, hci⟩ := explode_sound fuel L r [] (L2, n, v2) hrun
  obtain ⟨hveq, hnd, -, hunt, hcont, hcount, hcov, hlen⟩ := hs
  have hveq2 : v2 = new := by simpa using (hveq : v2 = new ++ [])
  refine ⟨L2, n, v2, hrun, ?_, ?_, ?_, ?_⟩
  · rw [hveq2]
    exact hcount
  · intro j hj
    rw [hveq2] at hj
    exact (hcont j hj).1
  · intro i rows cols srow scol harr
    constructor
    · unfold explodeInst
      rw [harr]
      rw [List.length_flatMap]
      have hmap : (List.range rows).map
          (List.length ∘ fun r2 => (List.range cols).map
            (fun c => (⟨i.cellIdx,
              translT (vadd (vsmul r2 srow) (vsmul c scol)) * i.trans,
              none⟩ : AInst))) =
          List.replicate rows cols := by
        simp only [Function.comp_def, List.length_map, List.length_range,
          List.map_const', List.length_range]
      rw [hmap, List.sum_const_nat]
    · intro r' c' hr' hc'
      unfold explodeInst
      rw [harr]
      rw [List.mem_flatMap]
      exact ⟨r', List.mem_range.mpr hr', List.mem_map.mpr
        ⟨c', List.mem_range.mpr hc', rfl⟩⟩
  · intro L3 n3 v3 hrun2
    have hclean1 : ∀ j, j ∈ v2 → arraysIn (getACell L2 j) = 0 := by
      intro j hj
      rw [hveq2] at hj
      rw [arraysIn_eq_zero_iff]
      rw [(hcont j hj).1]
      exact flatMap_explodeInst_no_arrays _
    have hclosed : ∀ j, j ∈ v2 → ∀ i ∈ (getACell L2 j).insts,
        i.cellIdx ∈ v2 := by
      intro j hj
      rw [hveq2] at hj ⊢
      intro i hi
      have := hcov j hj i hi
      rwa [hveq2] at this
    have := explode_clean L2 (fun j => j ∈ v2) hclean1
      (fun j hj i hi => hclosed j hj i hi) fuel L2 r [] (L3, n3, v3)
      (fun j => rfl) (Or.inl hci) hrun2
    exact this.1


/-- Witness for C5 on a concrete layout with one 2 by 3 array. -/
theorem explode_regular_arrays_count_exact_idempotent_witness :
    c5_layout.length < 3 ∧
    (∃ L2 n v2, explode_regular_arrays c5_layout 3 0 [] = some (L2, n, v2) ∧
      n = (v2.map (fun j => arraysIn (getACell c5_layout j))).sum ∧
      (∀ j ∈ v2, (getACell L2 j).insts =
        (getACell c5_layout j).insts.flatMap explodeInst) ∧
      (∀ (i : AInst) (rows cols : Nat) (srow scol : Int × Int),
        i.arr = some ((rows, cols), srow, scol) →
        (explodeInst i).length = rows * cols ∧
        ∀ r' c', r' < rows → c' < cols →
          (⟨i.cellIdx, translT (vadd (vsmul r' srow) (vsmul c' scol)) * i.trans,
            none⟩ : AInst) ∈ explodeInst i) ∧
      (∀ L3 n3 v3, explode_regular_arrays L2 3 0 [] = some (L3, n3, v3) →
        n3 = 0)) :=
  ⟨by decide, explode_regular_arrays_count_exact_idempotent c5_layout 3 0
    (by decide)⟩
